import Mathlib

/-!
# contracthashtool: script key extraction and contract commitment

A shallow embedding of `src/contracthashtool.c`.

* A script is a `List Nat`; reading an `unsigned char` at an offset is `byteAt`,
  which truncates the stored value to eight bits.
* Pointers into the script (`readpos`, `push_start`, the entries of `maybe_keys[]`
  and `pubkeys[]`) are offsets from the start of the script; `endpos` is the length.
* `ERROREXIT` is an explicit error outcome.
* The `while (readpos < endpos)` loop is run with fuel, because the read position can
  move backwards after a four-byte length with the sign bit set; the `while (true)`
  retry loop of `main` is run with fuel as well.
* `memset` and `memcpy` into an array are list surgery on its content; the content an
  array has before it is written is an arbitrary list of the array's length.
* `hmac_sha256` and the secp256k1 functions are parameters (`Primitives`).
* The command line is the list of options `getopt` yields, in order; the full contract
  of `-f` is the 40 bytes `hex_to_bytes` decoded.
-/

namespace ContractHashTool

/-! ## `get_pubkeys_from_redeemscript` (lines 38-106) -/

/-- The four distinct `ERROREXIT` messages of `get_pubkeys_from_redeemscript`. -/
inductive ScriptError
  /-- The message "Invalid push in script" (lines 53, 58, 63, 70). -/
  | invalidPush
  /-- The message "ERROR: Possible uncompressed pubkey found in redeem script, not converting it" (line 73). -/
  | uncompressedPubkey
  /-- The message "ERROR: Found possible public keys but are not using them as they are not followed
  immediately by [OP_N] OP_CHECK[MULTI]SIG[VERIFY]" (lines 77, 86, 94). -/
  | keysNotUsed
  /-- The message "ERROR: Found OP_CHECK[MULTI]SIG[VERIFY] without pubkey(s) immediately preceeding it"
  (line 96). -/
  | checksigWithoutKeys
  deriving DecidableEq

/-- The byte `*(redeem_script + i)`, an `unsigned char`. -/
def byteAt (script : List Nat) (i : Nat) : Nat :=
  script.getD i 0 % 256

/-- The value of a 32-bit pattern stored in an `int` (two's complement). -/
def toInt32 (v : Nat) : Int :=
  if v % 2 ^ 32 < 2 ^ 31 then ((v % 2 ^ 32 : Nat) : Int) else ((v % 2 ^ 32 : Nat) : Int) - 2 ^ 32

/-- The local variables of `get_pubkeys_from_redeemscript` that live across loop
iterations. `maybe_keys` and `pubkeys` hold the filled part of the arrays of the same
name, so `maybe_keys_count` and `pubkeys_count` are their lengths. -/
structure ScanState where
  readpos : Nat
  maybe_keys : List Nat
  pubkeys : List Nat
  require_next_checkmultisig : Bool
  deriving DecidableEq

/-- Lines 45-66: decode the item header at `readpos` into `(pushlen, push_start)`.
An opcode that is not a push leaves `pushlen = -1` (and `push_start` unused). -/
def read_push (script : List Nat) (readpos : Nat) : Except ScriptError (Int × Nat) :=
  let endpos := script.length
  let op := byteAt script readpos
  if 0 < op ∧ op < 76 then
    .ok ((op : Int), readpos + 1)
  else if op = 76 then
    if readpos + 1 ≥ endpos then .error .invalidPush
    else .ok ((byteAt script (readpos + 1) : Int), readpos + 2)
  else if op = 77 then
    if readpos + 2 ≥ endpos then .error .invalidPush
    else .ok (((byteAt script (readpos + 1) ||| (byteAt script (readpos + 2) <<< 8) : Nat) : Int),
      readpos + 3)
  else if op = 78 then
    if readpos + 4 ≥ endpos then .error .invalidPush
    else .ok (toInt32 (byteAt script (readpos + 1) ||| (byteAt script (readpos + 2) <<< 8)
        ||| (byteAt script (readpos + 3) <<< 16) ||| (byteAt script (readpos + 4) <<< 24)),
      readpos + 5)
  else
    .ok (-1, 0)

/-- Lines 68-97: the grammar check of one item, on the state without `readpos`. -/
def check_item (script : List Nat) (st : ScanState) (pushlen : Int) (push_start : Nat) :
    Except ScriptError ScanState :=
  let endpos : Int := script.length
  let op := byteAt script st.readpos
  if pushlen > -1 then
    if (push_start : Int) + pushlen ≥ endpos then .error .invalidPush
    else if pushlen = 65 ∧ byteAt script push_start = 4 then .error .uncompressedPubkey
    else if pushlen = 33 ∧ (byteAt script push_start = 2 ∨ byteAt script push_start = 3) then
      .ok { st with maybe_keys := st.maybe_keys ++ [push_start] }
    else if st.maybe_keys.length > 0 then .error .keysNotUsed
    else .ok st
  else
    if st.require_next_checkmultisig then
      if op = 174 ∨ op = 175 then
        .ok { st with
          require_next_checkmultisig := false
          pubkeys := st.pubkeys ++ st.maybe_keys
          maybe_keys := [] }
      else .error .keysNotUsed
    else if st.maybe_keys.length > 0 then
      if st.maybe_keys.length = 1 ∧ (op = 172 ∨ op = 173) then
        .ok { st with
          pubkeys := st.pubkeys ++ [st.maybe_keys.getD 0 0]
          maybe_keys := [] }
      else if (op + 2 ^ 32 - 80) % 2 ^ 32 = st.maybe_keys.length % 2 ^ 32 then
        .ok { st with require_next_checkmultisig := true }
      else .error .keysNotUsed
    else if 172 ≤ op ∧ op ≤ 175 then .error .checksigWithoutKeys
    else .ok st

/-- What one iteration of the loop body does. -/
inductive StepResult
  /-- The iteration ended in `ERROREXIT`. -/
  | exit (e : ScriptError)
  /-- The iteration completed with these values of the locals. -/
  | next (st : ScanState)
  /-- The new `readpos` lies before the start of the script (undefined behaviour). -/
  | outOfBounds
  deriving DecidableEq

/-- Lines 45-102: one iteration of the loop body. -/
def scan_step (script : List Nat) (st : ScanState) : StepResult :=
  match read_push script st.readpos with
  | .error e => .exit e
  | .ok (pushlen, push_start) =>
    match check_item script st pushlen push_start with
    | .error e => .exit e
    | .ok st1 =>
      if pushlen ≠ -1 then
        if (push_start : Int) + pushlen < 0 then .outOfBounds
        else .next { st1 with readpos := ((push_start : Int) + pushlen).toNat }
      else .next { st1 with readpos := st1.readpos + 1 }

/-- How a run of `get_pubkeys_from_redeemscript` ends. -/
inductive Outcome
  /-- The process ended in `ERROREXIT`. -/
  | exit (e : ScriptError)
  /-- The function returned `pubkeys_count` with `pubkeys[]` filled with these offsets. -/
  | ret (pubkeys : List Nat)
  /-- The read position left the script at its start (undefined behaviour). -/
  | outOfBounds
  /-- The loop was still running when the fuel ran out. -/
  | outOfFuel
  deriving DecidableEq

/-- Lines 44-105: the `while (readpos < endpos)` loop followed by the `return`. -/
def scan_loop (script : List Nat) : Nat → ScanState → Outcome
  | 0, _ => .outOfFuel
  | fuel + 1, st =>
    if st.readpos < script.length then
      match scan_step script st with
      | .exit e => .exit e
      | .outOfBounds => .outOfBounds
      | .next st1 => scan_loop script fuel st1
    else .ret st.pubkeys

/-- Lines 39-42: the initial values of the locals. -/
def initState : ScanState :=
  { readpos := 0, maybe_keys := [], pubkeys := [], require_next_checkmultisig := false }

/-- The function `get_pubkeys_from_redeemscript`, with `fuel` bounding the number of loop
iterations. -/
def get_pubkeys_from_redeemscript (fuel : Nat) (script : List Nat) : Outcome :=
  scan_loop script fuel initState

/-- The state after `n` completed loop iterations from `st`, when the loop condition held
before each of them and none of them exited. -/
def scanSteps (script : List Nat) : Nat → ScanState → Option ScanState
  | 0, st => some st
  | n + 1, st =>
    if st.readpos < script.length then
      match scan_step script st with
      | .next st1 => scanSteps script n st1
      | _ => none
    else none

/-- The 33 bytes a returned key pointer points at. -/
def keyAt (script : List Nat) (off : Nat) : List Nat :=
  (script.drop off).take 33

/-! ## Script construction (the vocabulary of the claims) -/

/-- The four ways a script can encode a data push: a direct length byte, or
`OP_PUSHDATA1` (76), `OP_PUSHDATA2` (77), `OP_PUSHDATA4` (78) followed by a one-, two- or
four-byte little-endian length. -/
inductive PushForm
  | direct
  | pushdata1
  | pushdata2
  | pushdata4
  deriving DecidableEq

/-- The header bytes of a push of `n` data bytes. -/
def push_header : PushForm → Nat → List Nat
  | .direct, n => [n]
  | .pushdata1, n => [76, n % 256]
  | .pushdata2, n => [77, n % 256, n / 256 % 256]
  | .pushdata4, n => [78, n % 256, n / 256 % 256, n / 65536 % 256, n / 16777216 % 256]

/-- The bytes of a script item pushing `data`. -/
def encodePush (f : PushForm) (data : List Nat) : List Nat :=
  push_header f data.length ++ data

/-- A compressed public key: 33 bytes, the first being 0x02 or 0x03. -/
def isCompressedKey (k : List Nat) : Prop :=
  k.length = 33 ∧ (∀ b ∈ k, b < 256) ∧ (k.getD 0 0 = 2 ∨ k.getD 0 0 = 3)

instance (k : List Nat) : Decidable (isCompressedKey k) := by
  unfold isCompressedKey; infer_instance

/-- The lengths a push form can encode (with a non-negative `pushlen`). -/
def PushForm.fits : PushForm → Nat → Prop
  | .direct, n => 0 < n ∧ n < 76
  | .pushdata1, n => n < 256
  | .pushdata2, n => n < 65536
  | .pushdata4, n => n < 2147483648

instance (f : PushForm) (n : Nat) : Decidable (f.fits n) := by
  cases f <;> unfold PushForm.fits <;> infer_instance

/-- The concatenated pushes of a list of keys, each with its own push form. -/
def encodePushes : List (PushForm × List Nat) → List Nat
  | [] => []
  | p :: ps => encodePush p.1 p.2 ++ encodePushes ps

/-- A key group of the supported grammar: one key and a single-signature check opcode, or
`N` keys, the opcode `80 + N` and a multi-signature check opcode. -/
inductive KeyGroup
  | single (f : PushForm) (key : List Nat) (c : Nat)
  | multi (keys : List (PushForm × List Nat)) (c : Nat)

/-- The script bytes of a key group. -/
def KeyGroup.encode : KeyGroup → List Nat
  | .single f k c => encodePush f k ++ [c]
  | .multi ks c => encodePushes ks ++ [80 + ks.length, c]

/-- The keys of a key group, in push order. -/
def KeyGroup.keys : KeyGroup → List (List Nat)
  | .single _ k _ => [k]
  | .multi ks _ => ks.map Prod.snd

/-- The number of script items (pushes and opcodes) of a key group. -/
def KeyGroup.items : KeyGroup → Nat
  | .single _ _ _ => 2
  | .multi ks _ => ks.length + 2

/-- The side conditions on a key group: compressed keys, the right check opcode, and for
a multi-signature group at least one key and `80 + N` a single byte. -/
def KeyGroup.wellFormed : KeyGroup → Prop
  | .single _ k c => isCompressedKey k ∧ (c = 172 ∨ c = 173)
  | .multi ks c => 1 ≤ ks.length ∧ 80 + ks.length < 256 ∧
      (∀ p ∈ ks, isCompressedKey p.2) ∧ (c = 174 ∨ c = 175)

instance (g : KeyGroup) : Decidable g.wellFormed := by
  cases g <;> unfold KeyGroup.wellFormed <;> infer_instance

/-- The concatenated script bytes of a list of key groups. -/
def encodeGroups : List KeyGroup → List Nat
  | [] => []
  | g :: gs => g.encode ++ encodeGroups gs

/-- The keys of a list of key groups, in encounter order. -/
def groupsKeys : List KeyGroup → List (List Nat)
  | [] => []
  | g :: gs => g.keys ++ groupsKeys gs

/-- The number of script items of a list of key groups. -/
def groupsItems : List KeyGroup → Nat
  | [] => 0
  | g :: gs => g.items + groupsItems gs

/-! ## `main`: the commitment data (lines 225-231, 240, 286-293) -/

/-- The call `memset(buf + off, c, n)`. -/
def memset (buf : List Nat) (off c n : Nat) : List Nat :=
  buf.take off ++ List.replicate n c ++ buf.drop (off + n)

/-- The call `memcpy(buf + off, src, n)` where `src` holds exactly the `n` bytes copied. -/
def memcpy (buf : List Nat) (off : Nat) (src : List Nat) : List Nat :=
  buf.take off ++ src ++ buf.drop (off + src.length)

/-- The size `4 + 16 + (ascii_contract ? strlen(ascii_contract) : 20)` of `data[]`. -/
def data_len (ascii_contract : Option (List Nat)) : Nat :=
  4 + 16 + (match ascii_contract with
    | some a => a.length
    | none => 20)

/-- Lines 225-231: `data[]` as address mode prepares it before the retry loop. `uninit` is
the indeterminate initial content of the array. -/
def address_data_init (uninit address_type : List Nat) (ascii_contract : Option (List Nat))
    (p2sh_bytes : List Nat) : List Nat :=
  let data := memset uninit 0 0 4
  let data := memcpy data 0 address_type
  match ascii_contract with
  | some a => memcpy data (4 + 16) a
  | none => memcpy data (4 + 16) p2sh_bytes

/-- Line 240: `memcpy(data + 4, nonce, sizeof(nonce))`. -/
def set_nonce (data nonce : List Nat) : List Nat :=
  memcpy data 4 nonce

/-- The content of `data[]` that address mode hashes: lines 225-231 followed by line 240. -/
def address_data (uninit address_type nonce : List Nat) (ascii_contract : Option (List Nat))
    (p2sh_bytes : List Nat) : List Nat :=
  set_nonce (address_data_init uninit address_type ascii_contract p2sh_bytes) nonce

/-- Lines 286-293: `data[]` as claim mode builds it. -/
def claim_data (uninit address_type nonce : List Nat) (ascii_contract : Option (List Nat))
    (p2sh_bytes : List Nat) : List Nat :=
  let data := memset uninit 0 0 4
  let data := memcpy data 0 address_type
  let data := memcpy data 4 nonce
  match ascii_contract with
  | some a => memcpy data (4 + 16) a
  | none => memcpy data (4 + 16) p2sh_bytes

/-- The contract payload: the text when `-a` was given, else the 20-byte digest. -/
def contract_payload (ascii_contract : Option (List Nat)) (p2sh_bytes : List Nat) : List Nat :=
  match ascii_contract with
  | some a => a
  | none => p2sh_bytes

/-- The layout of the commitment blob in the words of the specification:
`type_tag(4) || nonce(16) || contract_payload`. -/
def commitment_blob (tag nonce payload : List Nat) : List Nat :=
  tag ++ nonce ++ payload

/-! ## `main`: key tweaking (lines 233-261 and 295-305) -/

/-- The library functions `main` calls on keys: `hmac_sha256` and the secp256k1 API. They
are outside `src/` and are taken as parameters; `Point` stands for `secp256k1_pubkey_t`. -/
structure Primitives (Point : Type) where
  /-- The call `hmac_sha256(res, key, data, len)`: the 32-byte result for a 33-byte `key`. -/
  hmac_sha256 : List Nat → List Nat → List Nat
  /-- The function `secp256k1_ec_pubkey_parse` on 33 bytes; `none` when it returns 0. -/
  ec_pubkey_parse : List Nat → Option Point
  /-- The function `secp256k1_ec_pubkey_tweak_add`; `none` when it returns 0. -/
  ec_pubkey_tweak_add : Point → List Nat → Option Point
  /-- The function `secp256k1_ec_pubkey_serialize` with `compressed = 1`: the output bytes. -/
  ec_pubkey_serialize : Point → List Nat
  /-- The function `secp256k1_ec_pubkey_create`; `none` when it does not return 1. -/
  ec_pubkey_create : List Nat → Option Point
  /-- The function `secp256k1_ec_privkey_tweak_add`; `none` when it does not return 1. -/
  ec_privkey_tweak_add : List Nat → List Nat → Option (List Nat)

/-- The ways the tweaking code of `main` stops the process. -/
inductive MainError
  /-- The message "INVALID PUBLIC KEY IN SCRIPT" (line 247). -/
  | invalidPublicKey
  /-- The message "YOU BROKE SHA256, PLEASE SEND THE EXACT DATA USED IN A BUG REPORT" (line 250). -/
  | brokeSha256
  /-- A failed `assert(len == 33)` (lines 255, 299). -/
  | assertLen
  /-- The message "Private key was invalid" (line 297). -/
  | privateKeyInvalid
  /-- The message "Tweak is invalid" (line 305). -/
  | tweakInvalid
  deriving DecidableEq

/-- How the `for` loop of lines 242-256 ends. -/
inductive TweakResult
  /-- The process exited. -/
  | exit (e : MainError)
  /-- The loop was left by `break` (line 251) at index `i < key_count`. -/
  | stopped (i : Nat) (keys_work : List (List Nat))
  /-- The loop ran to `i == key_count`. -/
  | finished (keys_work : List (List Nat))
  deriving DecidableEq

/-- Lines 242-256: the `for` loop over the keys, from index `i` with `remaining`
iterations to go (`remaining = key_count - i`). `nonce_hex` tells whether the pointer of
that name is non-null. -/
def tweak_keys {Point : Type} (P : Primitives Point) (nonce_hex : Bool) (data : List Nat) :
    Nat → Nat → List (List Nat) → TweakResult
  | 0, _, keys_work => .finished keys_work
  | remaining + 1, i, keys_work =>
    let res := P.hmac_sha256 (keys_work.getD i []) data
    match P.ec_pubkey_parse (keys_work.getD i []) with
    | none => .exit .invalidPublicKey
    | some pubkey =>
      match P.ec_pubkey_tweak_add pubkey res with
      | none => if nonce_hex then .exit .brokeSha256 else .stopped i keys_work
      | some tweaked =>
        if (P.ec_pubkey_serialize tweaked).length = 33 then
          tweak_keys P nonce_hex data remaining (i + 1)
            (keys_work.set i (P.ec_pubkey_serialize tweaked))
        else .exit .assertLen

/-- How the retry loop of lines 234-259 ends. -/
inductive SearchOutcome
  /-- The process exited. -/
  | exit (e : MainError)
  /-- The loop was left at line 258 with these contents of `nonce`, `data`, `keys_work`. -/
  | found (nonce data : List Nat) (keys_work : List (List Nat))
  /-- The loop was still running when the fuel ran out. -/
  | outOfFuel
  deriving DecidableEq

/-- Lines 234-259: the `while (true)` retry loop. `keys` holds the 33 bytes behind each
pointer `keys[i]` (the script is not written inside the loop), `rand j` is the result of
the `j`-th 16-byte `fread` from `/dev/urandom`, `reads` counts the reads made so far. -/
def nonce_search {Point : Type} (P : Primitives Point) (keys : List (List Nat))
    (nonce_hex : Bool) (rand : Nat → List Nat) :
    Nat → Nat → List Nat → List Nat → SearchOutcome
  | 0, _, _, _ => .outOfFuel
  | fuel + 1, reads, nonce, data =>
    let keys_work := keys
    let nonce1 := if nonce_hex then nonce else rand reads
    let reads1 := if nonce_hex then reads else reads + 1
    let data1 := set_nonce data nonce1
    match tweak_keys P nonce_hex data1 keys.length 0 keys_work with
    | .exit e => .exit e
    | .stopped _ _ => nonce_search P keys nonce_hex rand fuel reads1 nonce1 data1
    | .finished keys_work1 => .found nonce1 data1 keys_work1

/-- Lines 260-261: `memcpy(keys[i], keys_work[i], 33)` for every `i`. -/
def write_back (redeem_script : List Nat) : List Nat → List (List Nat) → List Nat
  | off :: offs, w :: ws => write_back (memcpy redeem_script off w) offs ws
  | _, _ => redeem_script

/-- How address mode ends after the keys were extracted. -/
inductive AddressOutcome
  /-- The process exited. -/
  | exit (e : MainError)
  /-- Lines 270-279: the nonce, the serialized contract and the modified redeem script
  that are printed. -/
  | output (nonce data redeem_script : List Nat)
  /-- The retry loop was still running when the fuel ran out. -/
  | outOfFuel
  deriving DecidableEq

/-- Lines 225-261 of address mode: build `data`, search a nonce, write the tweaked keys
into the script. `keys` are the pointers returned by `get_pubkeys_from_redeemscript`,
`nonce` is the initial content of `nonce[]` (the caller's nonce when `nonce_hex`). -/
def address_mode {Point : Type} (P : Primitives Point) (redeem_script keys : List Nat)
    (nonce_hex : Bool) (nonce : List Nat) (rand : Nat → List Nat)
    (uninit address_type : List Nat) (ascii_contract : Option (List Nat))
    (p2sh_bytes : List Nat) (fuel : Nat) : AddressOutcome :=
  let data := address_data_init uninit address_type ascii_contract p2sh_bytes
  match nonce_search P (keys.map (keyAt redeem_script)) nonce_hex rand fuel 0 nonce data with
  | .exit e => .exit e
  | .outOfFuel => .outOfFuel
  | .found nonce1 data1 keys_work => .output nonce1 data1 (write_back redeem_script keys keys_work)

/-- How claim mode ends. -/
inductive ClaimOutcome
  /-- The process exited. -/
  | exit (e : MainError)
  /-- Lines 307-310: the tweaked secret that is encoded and printed. -/
  | output (priv : List Nat)
  deriving DecidableEq

/-- Lines 286-305 of claim mode: build `data`, derive the public key, hash, tweak the
private key. `priv` is the 32-byte secret the library reads and overwrites. -/
def claim_mode {Point : Type} (P : Primitives Point) (priv : List Nat)
    (uninit address_type nonce : List Nat) (ascii_contract : Option (List Nat))
    (p2sh_bytes : List Nat) : ClaimOutcome :=
  let data := claim_data uninit address_type nonce ascii_contract p2sh_bytes
  match P.ec_pubkey_create priv with
  | none => .exit .privateKeyInvalid
  | some pubkey =>
    let pub := P.ec_pubkey_serialize pubkey
    if pub.length = 33 then
      let tweak := P.hmac_sha256 pub data
      match P.ec_privkey_tweak_add priv tweak with
      | none => .exit .tweakInvalid
      | some priv1 => .output priv1
    else .exit .assertLen

/-! ## `main`: the command line (lines 109-171) -/

/-- One result of `getopt(argc, argv, "gcr:f:d:p:a:n:ht?")`, with `optarg` for the
options that take an argument. `help` stands for `'h'` and `'?'`. -/
inductive Opt
  | g
  | c
  | r (optarg : List Nat)
  | p (optarg : List Nat)
  | d (optarg : List Nat)
  | a (optarg : List Nat)
  | n (optarg : List Nat)
  | f (optarg : List Nat)
  | t
  | help
  deriving DecidableEq

/-- The variables of lines 109-110: `mode` (0, 1 for `-g`, 2 for `-c`) and the six string
pointers, `none` meaning `NULL`. -/
structure Args where
  mode : Nat
  redeem_script_hex : Option (List Nat)
  p2sh_address : Option (List Nat)
  ascii_contract : Option (List Nat)
  priv_key_str : Option (List Nat)
  nonce_hex : Option (List Nat)
  fullcontract_hex : Option (List Nat)
  deriving DecidableEq

/-- The `USAGEEXIT` messages of lines 119-171. -/
inductive UsageError
  /-- The message "May only specify one of -g, -c" (line 119). -/
  | oneMode
  /-- The message "-r only allowed once and in -g mode" (line 124). -/
  | redeemScript
  /-- The message "-p only allowed once and in -c mode" (line 129). -/
  | privKey
  /-- The message "Only one contract allowed" (lines 134, 139). -/
  | oneContract
  /-- The message "Only one nonce allowed" (line 144). -/
  | oneNonce
  /-- The message "-f is mutually exclusive with -d, -a, -n" (line 149). -/
  | fullContractExclusive
  /-- The message "No contract provided" (line 165). -/
  | noContract
  /-- The message "No redeem script specified" (line 167). -/
  | noRedeemScript
  /-- The message "No nonce specified" (line 169). -/
  | noNonce
  /-- The message "No private key specified" (line 171). -/
  | noPrivKey
  deriving DecidableEq

/-- How argument handling ends. -/
inductive ArgsOutcome
  /-- The process ended in `USAGEEXIT` (status 1). -/
  | usage (e : UsageError)
  /-- The usage text was printed and the process ended with `exit(0)` (lines 157-158). -/
  | helpExit
  /-- The arguments were accepted with these values. -/
  | accepted (args : Args)
  deriving DecidableEq

/-- Lines 109-110: the initial values. -/
def initArgs : Args :=
  { mode := 0, redeem_script_hex := none, p2sh_address := none, ascii_contract := none,
    priv_key_str := none, nonce_hex := none, fullcontract_hex := none }

/-- Lines 114-161: the `while`/`switch` over the options, in the order `getopt` yields
them. The `-t` option only switches the network and leaves these variables alone. -/
def argparse : List Opt → Args → ArgsOutcome
  | [], args => .accepted args
  | .g :: rest, args =>
    if args.mode ≠ 0 then .usage .oneMode else argparse rest { args with mode := 1 }
  | .c :: rest, args =>
    if args.mode ≠ 0 then .usage .oneMode else argparse rest { args with mode := 2 }
  | .r optarg :: rest, args =>
    if args.mode ≠ 1 ∨ args.redeem_script_hex.isSome then .usage .redeemScript
    else argparse rest { args with redeem_script_hex := some optarg }
  | .p optarg :: rest, args =>
    if args.mode ≠ 2 ∨ args.priv_key_str.isSome then .usage .privKey
    else argparse rest { args with priv_key_str := some optarg }
  | .d optarg :: rest, args =>
    if args.p2sh_address.isSome ∨ args.ascii_contract.isSome then .usage .oneContract
    else argparse rest { args with p2sh_address := some optarg }
  | .a optarg :: rest, args =>
    if args.ascii_contract.isSome then .usage .oneContract
    else argparse rest { args with ascii_contract := some optarg }
  | .n optarg :: rest, args =>
    if args.nonce_hex.isSome then .usage .oneNonce
    else argparse rest { args with nonce_hex := some optarg }
  | .f optarg :: rest, args =>
    if args.fullcontract_hex.isSome ∨ args.ascii_contract.isSome ∨ args.p2sh_address.isSome
        ∨ args.nonce_hex.isSome then .usage .fullContractExclusive
    else argparse rest { args with fullcontract_hex := some optarg }
  | .t :: rest, args => argparse rest args
  | .help :: _, _ => .helpExit

/-- Lines 164-171: the checks after the options were read. -/
def argcheck (args : Args) : ArgsOutcome :=
  if args.p2sh_address.isNone ∧ args.ascii_contract.isNone ∧ args.fullcontract_hex.isNone then
    .usage .noContract
  else if args.mode = 1 ∧ args.redeem_script_hex.isNone then .usage .noRedeemScript
  else if args.mode = 2 ∧ args.nonce_hex.isNone ∧ args.fullcontract_hex.isNone then
    .usage .noNonce
  else if args.mode = 2 ∧ args.priv_key_str.isNone then .usage .noPrivKey
  else .accepted args

/-- Lines 112-171: option parsing followed by the argument check. -/
def validate_args (opts : List Opt) : ArgsOutcome :=
  match argparse opts initArgs with
  | .accepted args => argcheck args
  | other => other

/-- The number of contract sources (`-d`, `-a`, `-f`) an option sequence supplies. -/
def contractSources (opts : List Opt) : Nat :=
  (opts.filter (fun o => match o with
    | .d _ => true
    | .a _ => true
    | .f _ => true
    | _ => false)).length

/-! ## `main`: the full contract (lines 188-203) -/

/-- How the handling of `-f` ends. -/
inductive FullContractOutcome
  /-- The message "Invalid fullcontract type" (line 197). -/
  | invalidType
  /-- The values of `address_type`, `nonce[]` and `p2sh_bytes[]` after line 202. -/
  | decoded (address_type nonce p2sh_bytes : List Nat)
  deriving DecidableEq

/-- Lines 192-202, on the 40 bytes `hex_to_bytes` produced: the two `memcmp` tests against
"P2SH" (`50 32 53 48`) and "P2PH" (`50 32 50 48`), then the two `memcpy` calls. -/
def decode_fullcontract (fullcontract : List Nat) : FullContractOutcome :=
  if fullcontract.take 4 = [80, 50, 83, 72] then
    .decoded [80, 50, 83, 72] ((fullcontract.drop 4).take 16)
      ((fullcontract.drop (4 + 16)).take 20)
  else if fullcontract.take 4 = [80, 50, 80, 72] then
    .decoded [80, 50, 83, 72] ((fullcontract.drop 4).take 16)
      ((fullcontract.drop (4 + 16)).take 20)
  else .invalidType

/-- The bytes address mode hashes when the contract was given with `-f` (lines 188-203,
then 225-231 and 240 with `ascii_contract` null), `none` when `-f` is rejected. -/
def fullcontract_data (uninit fullcontract : List Nat) : Option (List Nat) :=
  match decode_fullcontract fullcontract with
  | .invalidType => none
  | .decoded address_type nonce p2sh_bytes =>
    some (address_data uninit address_type nonce none p2sh_bytes)

/-! ## Concrete data for the instances -/

/-- A compressed key starting with 0x02. -/
def sampleKeyA : List Nat := 2 :: List.replicate 32 7

/-- A second compressed key, starting with 0x03. -/
def sampleKeyB : List Nat := 3 :: List.replicate 32 9

/-- The compressed public key of the usage example (line 29 of the source). -/
def usageKey : List Nat :=
  [3, 134, 149, 178, 143, 22, 73, 199, 17, 174, 219, 31, 236, 141, 245, 72, 116, 51, 76, 251,
   125, 223, 49, 186, 49, 50, 169, 77, 0, 189, 201, 113, 82]

/-- The compressed encoding of the secp256k1 base point. -/
def generatorKey : List Nat :=
  [2, 121, 190, 102, 126, 249, 220, 187, 172, 85, 160, 98, 149, 206, 135, 11, 7, 2, 155, 252,
   219, 45, 206, 40, 217, 89, 242, 129, 91, 22, 248, 23, 152]

/-- A script with an accepted single-signature group followed by a second key whose
arming opcode `OP_1` is the last byte of the script. -/
def scriptEndingArmed : List Nat :=
  encodePush .direct usageKey ++ [172] ++ encodePush .direct generatorKey ++ [81]

/-- A script in which a compressed-key push, not a check opcode, follows the arming
opcode `OP_1`. -/
def scriptKeyAfterArming : List Nat :=
  encodePush .direct usageKey ++ [81] ++ encodePush .direct generatorKey ++ [174]

/-- An uncompressed-looking push payload: 65 bytes starting with 0x04. -/
def sampleUncompressed : List Nat := 4 :: List.replicate 64 1

/-- Toy primitives over the integers, used for concrete instances: a point is an integer,
a scalar is the sum of its bytes, `derive` is the identity, and a tweak of `[0]` is out
of range. -/
def toyPrimitives : Primitives Int where
  hmac_sha256 := fun key data => [(key.sum + data.sum) % 3]
  ec_pubkey_parse := fun b => some (if b.getD 0 0 = 1 then -((b.getD 1 0 : Nat) : Int)
    else ((b.getD 1 0 : Nat) : Int))
  ec_pubkey_tweak_add := fun pt t => if t = [0] then none else some (pt + ((t.sum : Nat) : Int))
  ec_pubkey_serialize := fun pt =>
    (if pt < 0 then 1 else 0) :: pt.natAbs :: List.replicate 31 0
  ec_pubkey_create := fun k => some ((k.sum : Nat) : Int)
  ec_privkey_tweak_add := fun k t => if t = [0] then none else some [k.sum + t.sum]

/-- A 2-of-2 multi-signature script over the two sample keys. -/
def sampleMultisig : List Nat :=
  encodePushes [(.direct, sampleKeyA), (.direct, sampleKeyB)] ++ [82, 174]

/-- An accepted single-signature group followed by `OP_PUSHDATA4` with the length bytes
`ff ff ff ff` and a single byte after them. -/
def scriptHugePushdata4 : List Nat :=
  encodePush .direct usageKey ++ [172] ++ [78, 255, 255, 255, 255, 0]

/-- The five bytes `4e fb ff ff ff`: `OP_PUSHDATA4` whose length reads as `-5`. -/
def scriptBackwardLoop : List Nat := [78, 251, 255, 255, 255]

/-- A key-shaped string holding, from its seventh byte on, the start of a second
key-shaped push. -/
def nestedKey : List Nat := [2, 0, 0, 0, 0, 0, 33, 3] ++ List.replicate 25 0

/-- A script of 42 bytes: `nestedKey` pushed and checked, then `OP_PUSHDATA4` whose length
`df ff ff ff` reads as `-33` and sends the read position back to offset 7, from where the
bytes 8..40 are a second key-shaped push, checked by the last byte. -/
def scriptRescan : List Nat :=
  encodePush .direct nestedKey ++ [172] ++ [78, 223, 255, 255, 255, 0] ++ [172]

/-- A full contract with the tag "P2PH", the nonce 0..15 and a digest of twenty 7s. -/
def fullcontractP2PH : List Nat :=
  [80, 50, 80, 72] ++ List.range 16 ++ List.replicate 20 7

/-! # Theorems -/

/-! ## Reading bytes -/

theorem byteAt_lt (script : List Nat) (i : Nat) : byteAt script i < 256 :=
  Nat.mod_lt _ (by norm_num)

theorem byteAt_append_right (pre s : List Nat) (i : Nat) :
    byteAt (pre ++ s) (pre.length + i) = byteAt s i := by
  unfold byteAt
  rw [List.getD_append_right _ _ _ _ (Nat.le_add_right _ _)]
  simp

theorem byteAt_append_right_zero (pre s : List Nat) :
    byteAt (pre ++ s) pre.length = byteAt s 0 := by
  simpa using byteAt_append_right pre s 0

theorem byteAt_append_left (s t : List Nat) (i : Nat) (h : i < s.length) :
    byteAt (s ++ t) i = byteAt s i := by
  unfold byteAt
  rw [List.getD_append _ _ _ _ h]

theorem byteAt_cons_zero (b : Nat) (s : List Nat) : byteAt (b :: s) 0 = b % 256 := rfl

theorem byteAt_cons_succ (b : Nat) (s : List Nat) (i : Nat) :
    byteAt (b :: s) (i + 1) = byteAt s i := rfl

/-- Little-endian assembly of four bytes with `|` and `<<` is the positional sum. -/
theorem lor_shift_bytes (b1 b2 b3 b4 : Nat) (h1 : b1 < 256) (h2 : b2 < 256) (h3 : b3 < 256) :
    b1 ||| (b2 <<< 8) ||| (b3 <<< 16) ||| (b4 <<< 24)
      = b1 + 256 * b2 + 65536 * b3 + 16777216 * b4 := by
  have e2 : b1 ||| (b2 <<< 8) = b1 + 256 * b2 := by
    rw [Nat.shiftLeft_eq, Nat.lor_comm, Nat.mul_comm b2]
    have := Nat.mul_add_lt_is_or (i := 8) (b := b1) (by norm_num; omega) b2
    rw [← this]; norm_num; omega
  have e3 : (b1 + 256 * b2) ||| (b3 <<< 16) = b1 + 256 * b2 + 65536 * b3 := by
    rw [Nat.shiftLeft_eq, Nat.lor_comm, Nat.mul_comm b3]
    have := Nat.mul_add_lt_is_or (i := 16) (b := b1 + 256 * b2) (by norm_num; omega) b3
    rw [← this]; norm_num; omega
  have e4 : (b1 + 256 * b2 + 65536 * b3) ||| (b4 <<< 24)
      = b1 + 256 * b2 + 65536 * b3 + 16777216 * b4 := by
    rw [Nat.shiftLeft_eq, Nat.lor_comm, Nat.mul_comm b4]
    have := Nat.mul_add_lt_is_or (i := 24) (b := b1 + 256 * b2 + 65536 * b3)
      (by norm_num; omega) b4
    rw [← this]; norm_num; omega
  rw [e2, e3, e4]

theorem lor_shift_two_bytes (b1 b2 : Nat) (h1 : b1 < 256) :
    b1 ||| (b2 <<< 8) = b1 + 256 * b2 := by
  rw [Nat.shiftLeft_eq, Nat.lor_comm, Nat.mul_comm b2]
  have := Nat.mul_add_lt_is_or (i := 8) (b := b1) (by norm_num; omega) b2
  rw [← this]; norm_num; omega

theorem toInt32_of_lt (v : Nat) (h : v < 2 ^ 31) : toInt32 v = (v : Int) := by
  unfold toInt32
  have : v % 2 ^ 32 = v := Nat.mod_eq_of_lt (by omega)
  rw [this, if_pos h]

/-! ## Running the loop -/

theorem scanSteps_add (script : List Nat) (m n : Nat) (st : ScanState) :
    scanSteps script (m + n) st = (scanSteps script m st).bind (scanSteps script n) := by
  induction m generalizing st with
  | zero => simp [scanSteps]
  | succ m ih =>
    rw [Nat.succ_add]
    simp only [scanSteps]
    split
    · split
      · exact ih _
      · rfl
    · rfl

theorem scanSteps_trans {script : List Nat} {m n : Nat} {st st1 st2 : ScanState}
    (h1 : scanSteps script m st = some st1) (h2 : scanSteps script n st1 = some st2) :
    scanSteps script (m + n) st = some st2 := by
  rw [scanSteps_add, h1]; exact h2

theorem scanSteps_one {script : List Nat} {st st1 : ScanState}
    (hpos : st.readpos < script.length) (h : scan_step script st = .next st1) :
    scanSteps script 1 st = some st1 := by
  simp [scanSteps, hpos, h]

/-- The loop, started `n` completed iterations earlier, gives the same outcome with `n`
more units of fuel. -/
theorem scan_loop_of_scanSteps {script : List Nat} {n : Nat} {st st1 : ScanState}
    (h : scanSteps script n st = some st1) (fuel : Nat) :
    scan_loop script (n + fuel) st = scan_loop script fuel st1 := by
  induction n generalizing st with
  | zero => simp [scanSteps] at h; simp [h]
  | succ n ih =>
    rw [Nat.succ_add]
    simp only [scanSteps] at h
    simp only [scan_loop]
    split at h
    · rename_i hpos
      rw [if_pos hpos]
      split at h
      · rename_i st2 hstep
        rw [hstep]
        exact ih h
      · simp at h
    · simp at h

theorem scan_loop_at_end {script : List Nat} {st : ScanState}
    (h : script.length ≤ st.readpos) (fuel : Nat) :
    scan_loop script (fuel + 1) st = .ret st.pubkeys := by
  simp [scan_loop, Nat.not_lt.mpr h]

/-! ## The item header -/

theorem read_push_direct {script : List Nat} {p : Nat}
    (h : 0 < byteAt script p ∧ byteAt script p < 76) :
    read_push script p = .ok ((byteAt script p : Int), p + 1) := by
  simp only [read_push]
  rw [if_pos h]

theorem read_push_76 {script : List Nat} {p : Nat} (h : byteAt script p = 76)
    (hlen : p + 1 < script.length) :
    read_push script p = .ok ((byteAt script (p + 1) : Int), p + 2) := by
  have hl : ¬ script.length ≤ p + 1 := by omega
  simp [read_push, h, hl]

theorem read_push_77 {script : List Nat} {p : Nat} (h : byteAt script p = 77)
    (hlen : p + 2 < script.length) :
    read_push script p
      = .ok (((byteAt script (p + 1) + 256 * byteAt script (p + 2) : Nat) : Int), p + 3) := by
  have hl : ¬ script.length ≤ p + 2 := by omega
  simp [read_push, h, hl, lor_shift_two_bytes _ _ (byteAt_lt _ _)]

theorem read_push_78 {script : List Nat} {p : Nat} (h : byteAt script p = 78)
    (hlen : p + 4 < script.length) :
    read_push script p
      = .ok (toInt32 (byteAt script (p + 1) + 256 * byteAt script (p + 2)
          + 65536 * byteAt script (p + 3) + 16777216 * byteAt script (p + 4)), p + 5) := by
  have hl : ¬ script.length ≤ p + 4 := by omega
  simp [read_push, h, hl, lor_shift_bytes _ _ _ _ (byteAt_lt _ _) (byteAt_lt _ _) (byteAt_lt _ _)]

theorem read_push_opcode {script : List Nat} {p : Nat}
    (h : byteAt script p = 0 ∨ 78 < byteAt script p) :
    read_push script p = .ok (-1, 0) := by
  simp only [read_push]
  rw [if_neg (by omega), if_neg (by omega), if_neg (by omega), if_neg (by omega)]

theorem length_encodePush (f : PushForm) (data : List Nat) :
    (encodePush f data).length = (push_header f data.length).length + data.length := by
  simp [encodePush]

theorem byteAt_header (pre tail : List Nat) (f : PushForm) (n i : Nat)
    (hi : i < (push_header f n).length) :
    byteAt (pre ++ (push_header f n ++ tail)) (pre.length + i) = byteAt (push_header f n) i := by
  rw [byteAt_append_right, byteAt_append_left _ _ _ hi]

/-- Decoding a push header for `n` data bytes gives `pushlen = n` and the offset right
after the header, whatever follows the header. -/
theorem read_push_header (pre tail : List Nat) (f : PushForm) (n : Nat) (hfit : f.fits n) :
    read_push (pre ++ (push_header f n ++ tail)) pre.length
      = .ok ((n : Int), pre.length + (push_header f n).length) := by
  have hlen : (pre ++ (push_header f n ++ tail)).length
      = pre.length + ((push_header f n).length + tail.length) := by
    simp
  have hb := byteAt_header pre tail f n
  generalize pre ++ (push_header f n ++ tail) = script at hlen hb ⊢
  cases f
  · simp only [PushForm.fits] at hfit
    have h0 := hb 0 (by simp [push_header])
    simp only [push_header, byteAt_cons_zero, Nat.add_zero] at h0
    rw [Nat.mod_eq_of_lt (by omega)] at h0
    rw [read_push_direct (by omega), h0]
    simp [push_header]
  · simp only [PushForm.fits] at hfit
    have h0 := hb 0 (by simp [push_header])
    have h1 := hb 1 (by simp [push_header])
    simp only [push_header, byteAt_cons_zero, byteAt_cons_succ, Nat.add_zero] at h0 h1
    simp only [push_header, List.length_cons, List.length_nil] at hlen
    rw [read_push_76 h0 (by omega), h1]
    simp only [push_header, List.length_cons, List.length_nil]
    congr 2
    omega
  · simp only [PushForm.fits] at hfit
    have h0 := hb 0 (by simp [push_header])
    have h1 := hb 1 (by simp [push_header])
    have h2 := hb 2 (by simp [push_header])
    simp only [push_header, byteAt_cons_zero, byteAt_cons_succ, Nat.add_zero] at h0 h1 h2
    simp only [push_header, List.length_cons, List.length_nil] at hlen
    rw [read_push_77 h0 (by omega), h1, h2]
    simp only [push_header, List.length_cons, List.length_nil]
    congr 2
    omega
  · simp only [PushForm.fits] at hfit
    have h0 := hb 0 (by simp [push_header])
    have h1 := hb 1 (by simp [push_header])
    have h2 := hb 2 (by simp [push_header])
    have h3 := hb 3 (by simp [push_header])
    have h4 := hb 4 (by simp [push_header])
    simp only [push_header, byteAt_cons_zero, byteAt_cons_succ, Nat.add_zero] at h0 h1 h2 h3 h4
    simp only [push_header, List.length_cons, List.length_nil] at hlen
    rw [read_push_78 h0 (by omega), h1, h2, h3, h4, toInt32_of_lt _ (by omega)]
    simp only [push_header, List.length_cons, List.length_nil]
    congr 2
    omega

/-- Decoding the header of an encoded push gives the data length and the data offset. -/
theorem read_push_encodePush (pre rest data : List Nat) (f : PushForm)
    (hfit : f.fits data.length) :
    read_push (pre ++ (encodePush f data ++ rest)) pre.length
      = .ok ((data.length : Int), pre.length + (push_header f data.length).length) := by
  have := read_push_header pre (data ++ rest) f data.length hfit
  rwa [← List.append_assoc (push_header f data.length)] at this

/-! ## Single iterations -/

/-- A push of a compressed key that does not end the script is recorded as a candidate. -/
theorem scan_step_key {script : List Nat} {st : ScanState} {ps : Nat}
    (hread : read_push script st.readpos = .ok (33, ps))
    (hlen : ps + 33 < script.length)
    (hfirst : byteAt script ps = 2 ∨ byteAt script ps = 3) :
    scan_step script st
      = .next { st with readpos := ps + 33, maybe_keys := st.maybe_keys ++ [ps] } := by
  have h1 : ¬ ((script.length : Int) ≤ (ps : Int) + 33) := by omega
  have h2 : ¬ ((ps : Int) + 33 < 0) := by omega
  have h3 : ((ps : Int) + 33).toNat = ps + 33 := by omega
  simp only [scan_step, hread, check_item]
  simp [h1, h2, h3, hfirst]

/-- A single-signature check opcode right after exactly one candidate accepts it. -/
theorem scan_step_checksig {script : List Nat} {st : ScanState} {o : Nat}
    (hop : byteAt script st.readpos = 172 ∨ byteAt script st.readpos = 173)
    (hkeys : st.maybe_keys = [o]) (hreq : st.require_next_checkmultisig = false) :
    scan_step script st
      = .next { st with readpos := st.readpos + 1, pubkeys := st.pubkeys ++ [o],
                        maybe_keys := [] } := by
  have hread : read_push script st.readpos = .ok (-1, 0) := read_push_opcode (by omega)
  simp only [scan_step, hread, check_item]
  simp [hreq, hkeys, hop]

/-- The opcode `80 + maybe_keys_count` arms `require_next_checkmultisig`. -/
theorem scan_step_arm {script : List Nat} {st : ScanState}
    (hop : byteAt script st.readpos = 80 + st.maybe_keys.length)
    (hpos : 0 < st.maybe_keys.length) (hreq : st.require_next_checkmultisig = false) :
    scan_step script st
      = .next { st with readpos := st.readpos + 1, require_next_checkmultisig := true } := by
  have hb := byteAt_lt script st.readpos
  have hread : read_push script st.readpos = .ok (-1, 0) := read_push_opcode (by omega)
  have h1 : ¬ (st.maybe_keys.length = 1 ∧
      (byteAt script st.readpos = 172 ∨ byteAt script st.readpos = 173)) := by omega
  have h2 : (byteAt script st.readpos + 2 ^ 32 - 80) % 2 ^ 32
      = st.maybe_keys.length % 2 ^ 32 := by omega
  simp only [scan_step, hread, check_item]
  simp only [hreq, h1, h2]
  simp [hpos]

/-- A multi-signature check opcode while armed accepts all candidates. -/
theorem scan_step_checkmultisig {script : List Nat} {st : ScanState}
    (hop : byteAt script st.readpos = 174 ∨ byteAt script st.readpos = 175)
    (hreq : st.require_next_checkmultisig = true) :
    scan_step script st
      = .next { st with readpos := st.readpos + 1, require_next_checkmultisig := false,
                        pubkeys := st.pubkeys ++ st.maybe_keys, maybe_keys := [] } := by
  have hread : read_push script st.readpos = .ok (-1, 0) := read_push_opcode (by omega)
  simp only [scan_step, hread, check_item]
  simp [hreq, hop]

theorem keyAt_encodePush (pre rest k : List Nat) (f : PushForm) (hk : k.length = 33) :
    keyAt (pre ++ (encodePush f k ++ rest)) (pre.length + (push_header f k.length).length)
      = k := by
  have e : pre ++ (encodePush f k ++ rest)
      = (pre ++ push_header f k.length) ++ (k ++ rest) := by
    simp [encodePush]
  have el : pre.length + (push_header f k.length).length
      = (pre ++ push_header f k.length).length := by simp
  rw [keyAt, e, el, List.drop_left, ← hk, List.take_left]

theorem fits_33 (f : PushForm) : f.fits 33 := by
  cases f <;> simp [PushForm.fits]

theorem fits_65 (f : PushForm) : f.fits 65 := by
  cases f <;> simp [PushForm.fits]

/-- The iteration over an encoded compressed-key push that is followed by at least one
more byte. -/
theorem scan_step_encoded_key (pre rest k : List Nat) (f : PushForm) (st : ScanState)
    (hk : isCompressedKey k) (hrest : rest ≠ []) (hpos : st.readpos = pre.length) :
    scan_step (pre ++ (encodePush f k ++ rest)) st
      = .next { st with
          readpos := pre.length + (encodePush f k).length
          maybe_keys := st.maybe_keys ++ [pre.length + (push_header f k.length).length] } := by
  obtain ⟨hlen, _, hfirst⟩ := hk
  have hread := read_push_encodePush pre rest k f (by rw [hlen]; exact fits_33 f)
  have hrl : 0 < rest.length := List.length_pos.mpr hrest
  have hb : byteAt (pre ++ (encodePush f k ++ rest))
      (pre.length + (push_header f k.length).length) = k.getD 0 0 := by
    have e : pre ++ (encodePush f k ++ rest)
        = (pre ++ push_header f k.length) ++ (k ++ rest) := by
      simp [encodePush]
    have el : pre.length + (push_header f k.length).length
        = (pre ++ push_header f k.length).length := by simp
    rw [e, el, byteAt_append_right_zero, byteAt_append_left _ _ _ (by omega), byteAt]
    rcases hfirst with h | h <;> rw [h]
  have := @scan_step_key (pre ++ (encodePush f k ++ rest)) st
    (pre.length + (push_header f k.length).length)
    (by rw [hpos, hread, hlen]; rfl)
    (by simp [length_encodePush]; omega)
    (by rw [hb]; exact hfirst)
  rw [this, length_encodePush]
  congr 2
  omega

/-! ## Key groups -/

/-- Scanning a run of encoded compressed-key pushes that is followed by at least one more
byte: every key becomes a candidate, in order. -/
theorem scanSteps_key_pushes (ks : List (PushForm × List Nat)) (pre rest : List Nat)
    (st : ScanState) (hks : ∀ p ∈ ks, isCompressedKey p.2) (hrest : rest ≠ [])
    (hpos : st.readpos = pre.length) :
    ∃ offs : List Nat,
      scanSteps (pre ++ (encodePushes ks ++ rest)) ks.length st
        = some { st with readpos := pre.length + (encodePushes ks).length
                         maybe_keys := st.maybe_keys ++ offs } ∧
      offs.map (keyAt (pre ++ (encodePushes ks ++ rest))) = ks.map Prod.snd := by
  induction ks generalizing pre st with
  | nil =>
    refine ⟨[], ?_, rfl⟩
    simp [scanSteps, encodePushes, ← hpos]
  | cons p tl ih =>
    have hp : isCompressedKey p.2 := hks p (List.mem_cons_self _ _)
    have htl : ∀ q ∈ tl, isCompressedKey q.2 := fun q hq => hks q (List.mem_cons_of_mem _ hq)
    have hscript : pre ++ (encodePushes (p :: tl) ++ rest)
        = pre ++ (encodePush p.1 p.2 ++ (encodePushes tl ++ rest)) := by
      simp [encodePushes]
    have hscript2 : pre ++ (encodePushes (p :: tl) ++ rest)
        = (pre ++ encodePush p.1 p.2) ++ (encodePushes tl ++ rest) := by
      simp [encodePushes]
    have hne : encodePushes tl ++ rest ≠ [] := by simp [hrest]
    have hstep := scan_step_encoded_key pre (encodePushes tl ++ rest) p.2 p.1 st hp hne hpos
    have hkey := keyAt_encodePush pre (encodePushes tl ++ rest) p.2 p.1 hp.1
    rw [← hscript] at hstep hkey
    obtain ⟨offs, hrun, hmap⟩ := ih (pre ++ encodePush p.1 p.2)
      { st with readpos := pre.length + (encodePush p.1 p.2).length
                maybe_keys := st.maybe_keys ++ [pre.length + (push_header p.1 p.2.length).length] }
      htl (by simp)
    rw [← hscript2] at hrun hmap
    refine ⟨(pre.length + (push_header p.1 p.2.length).length) :: offs, ?_, ?_⟩
    · have hlt : st.readpos < (pre ++ (encodePushes (p :: tl) ++ rest)).length := by
        have : 0 < rest.length := List.length_pos.mpr hrest
        simp [hpos]; omega
      have h1 := scanSteps_one hlt hstep
      have h2 := scanSteps_trans h1 hrun
      rw [List.length_cons, Nat.add_comm tl.length 1, h2]
      simp [encodePushes, Nat.add_assoc]
    · rw [List.map_cons, List.map_cons, hkey, hmap]

/-- Scanning one well-formed key group from a state with no candidates: its keys are
appended to the accepted keys and the state is again without candidates. -/
theorem scanSteps_group (g : KeyGroup) (pre rest : List Nat) (st : ScanState)
    (hg : g.wellFormed) (hpos : st.readpos = pre.length) (hmk : st.maybe_keys = [])
    (hreq : st.require_next_checkmultisig = false) :
    ∃ offs : List Nat,
      scanSteps (pre ++ (g.encode ++ rest)) g.items st
        = some { st with readpos := pre.length + g.encode.length
                         pubkeys := st.pubkeys ++ offs } ∧
      offs.map (keyAt (pre ++ (g.encode ++ rest))) = g.keys := by
  cases g with
  | single f k c =>
    obtain ⟨hk, hc⟩ := hg
    have hscript : pre ++ ((KeyGroup.single f k c).encode ++ rest)
        = pre ++ (encodePush f k ++ (c :: rest)) := by
      simp [KeyGroup.encode]
    rw [hscript]
    generalize hs : pre ++ (encodePush f k ++ (c :: rest)) = script
    have hlen : script.length = pre.length + (encodePush f k).length + 1 + rest.length := by
      rw [← hs]; simp; omega
    have hstep1 := scan_step_encoded_key pre (c :: rest) k f st hk (by simp) hpos
    have hkey := keyAt_encodePush pre (c :: rest) k f hk.1
    rw [hs] at hstep1 hkey
    have hop : byteAt script (pre.length + (encodePush f k).length) = c := by
      have e : pre ++ (encodePush f k ++ (c :: rest)) = (pre ++ encodePush f k) ++ (c :: rest) := by
        simp
      have el : pre.length + (encodePush f k).length = (pre ++ encodePush f k).length := by simp
      rw [← hs, e, el, byteAt_append_right_zero, byteAt_cons_zero]
      omega
    have hstep2 := @scan_step_checksig script
      { st with readpos := pre.length + (encodePush f k).length
                maybe_keys := st.maybe_keys ++ [pre.length + (push_header f k.length).length] }
      (pre.length + (push_header f k.length).length)
      (by rw [hop]; exact hc) (by simp [hmk]) hreq
    refine ⟨[pre.length + (push_header f k.length).length], ?_, ?_⟩
    · have h1 := scanSteps_one (by omega) hstep1
      have h2 := scanSteps_one (by simp only; omega) hstep2
      have h3 := scanSteps_trans h1 h2
      simp only [KeyGroup.items]
      rw [h3]
      simp [KeyGroup.encode, Nat.add_assoc, hmk]
    · simp [hkey, KeyGroup.keys]
  | multi ks c =>
    obtain ⟨hN, hbyte, hks, hc⟩ := hg
    have hscript : pre ++ ((KeyGroup.multi ks c).encode ++ rest)
        = pre ++ (encodePushes ks ++ ((80 + ks.length) :: c :: rest)) := by
      simp [KeyGroup.encode]
    rw [hscript]
    generalize hs : pre ++ (encodePushes ks ++ ((80 + ks.length) :: c :: rest)) = script
    have hlen : script.length = pre.length + (encodePushes ks).length + 2 + rest.length := by
      rw [← hs]; simp; omega
    obtain ⟨offs, hrun, hmap⟩ := scanSteps_key_pushes ks pre ((80 + ks.length) :: c :: rest) st
      hks (by simp) hpos
    rw [hs] at hrun hmap
    have hol : offs.length = ks.length := by
      have := congrArg List.length hmap
      simpa using this
    have e : pre ++ (encodePushes ks ++ ((80 + ks.length) :: c :: rest))
        = (pre ++ encodePushes ks) ++ ((80 + ks.length) :: c :: rest) := by simp
    have el : pre.length + (encodePushes ks).length = (pre ++ encodePushes ks).length := by simp
    have hop1 : byteAt script (pre.length + (encodePushes ks).length) = 80 + ks.length := by
      rw [← hs, e, el, byteAt_append_right_zero, byteAt_cons_zero]
      omega
    have hop2 : byteAt script (pre.length + (encodePushes ks).length + 1) = c := by
      rw [← hs, e, el, byteAt_append_right, byteAt_cons_succ, byteAt_cons_zero]
      omega
    have hstep1 := @scan_step_arm script
      { st with readpos := pre.length + (encodePushes ks).length
                maybe_keys := st.maybe_keys ++ offs }
      (by simp [hop1, hmk, hol]) (by simp [hmk, hol]; omega) hreq
    have hstep2 := @scan_step_checkmultisig script
      { st with readpos := pre.length + (encodePushes ks).length + 1
                maybe_keys := st.maybe_keys ++ offs
                require_next_checkmultisig := true }
      (by rw [hop2]; exact hc) rfl
    refine ⟨offs, ?_, hmap⟩
    have h1 := scanSteps_one (by simp only; omega) hstep1
    have h2 := scanSteps_one (by simp only; omega) hstep2
    have h3 := scanSteps_trans (scanSteps_trans hrun h1) h2
    simp only [KeyGroup.items]
    rw [h3]
    simp [KeyGroup.encode, hmk, hreq, Nat.add_assoc]

/-- Scanning a sequence of well-formed key groups from a state with no candidates. -/
theorem scanSteps_groups (gs : List KeyGroup) (pre : List Nat) (st : ScanState)
    (hgs : ∀ g ∈ gs, g.wellFormed) (hpos : st.readpos = pre.length)
    (hmk : st.maybe_keys = []) (hreq : st.require_next_checkmultisig = false) :
    ∃ offs : List Nat,
      scanSteps (pre ++ encodeGroups gs) (groupsItems gs) st
        = some { st with readpos := pre.length + (encodeGroups gs).length
                         pubkeys := st.pubkeys ++ offs } ∧
      offs.map (keyAt (pre ++ encodeGroups gs)) = groupsKeys gs := by
  induction gs generalizing pre st with
  | nil =>
    refine ⟨[], ?_, rfl⟩
    simp [scanSteps, encodeGroups, groupsItems, ← hpos]
  | cons g tl ih =>
    have hg : g.wellFormed := hgs g (List.mem_cons_self _ _)
    have htl : ∀ q ∈ tl, q.wellFormed := fun q hq => hgs q (List.mem_cons_of_mem _ hq)
    have hscript : pre ++ encodeGroups (g :: tl) = pre ++ (g.encode ++ encodeGroups tl) := rfl
    have hscript2 : pre ++ encodeGroups (g :: tl) = (pre ++ g.encode) ++ encodeGroups tl := by
      simp [encodeGroups]
    obtain ⟨offs1, hrun1, hmap1⟩ := scanSteps_group g pre (encodeGroups tl) st hg hpos hmk hreq
    rw [← hscript] at hrun1 hmap1
    obtain ⟨offs2, hrun2, hmap2⟩ := ih (pre ++ g.encode)
      { st with readpos := pre.length + g.encode.length, pubkeys := st.pubkeys ++ offs1 }
      htl (by simp) hmk hreq
    rw [← hscript2] at hrun2 hmap2
    refine ⟨offs1 ++ offs2, ?_, ?_⟩
    · have h := scanSteps_trans hrun1 hrun2
      simp only [groupsItems]
      rw [h]
      simp [encodeGroups, Nat.add_assoc]
    · rw [List.map_append, hmap1, hmap2, groupsKeys]

/-- The whole function on the concatenation of well-formed key groups: it returns, and
the returned pointers address the groups' keys in encounter order. -/
theorem scan_loop_groups (gs : List KeyGroup) (hgs : ∀ g ∈ gs, g.wellFormed)
    (fuel : Nat) (hfuel : groupsItems gs < fuel) :
    ∃ offs : List Nat,
      scan_loop (encodeGroups gs) fuel initState = .ret offs ∧
      offs.map (keyAt (encodeGroups gs)) = groupsKeys gs := by
  obtain ⟨offs, hrun, hmap⟩ := scanSteps_groups gs [] initState hgs rfl rfl rfl
  simp only [List.nil_append] at hrun hmap
  refine ⟨offs, ?_, hmap⟩
  obtain ⟨d, rfl⟩ : ∃ d, fuel = groupsItems gs + (d + 1) := ⟨fuel - groupsItems gs - 1, by omega⟩
  rw [scan_loop_of_scanSteps hrun, scan_loop_at_end (by simp)]
  simp [initState]

/-- When the iteration after `n` completed ones exits, so does the whole loop, with any
fuel above `n`. -/
theorem scan_loop_exit_of_scanSteps {script : List Nat} {n : Nat} {st0 st : ScanState}
    {e : ScriptError} (hreach : scanSteps script n st0 = some st)
    (hpos : st.readpos < script.length) (hstep : scan_step script st = .exit e)
    (fuel : Nat) (hfuel : n < fuel) :
    scan_loop script fuel st0 = .exit e := by
  obtain ⟨d, rfl⟩ : ∃ d, fuel = n + (d + 1) := ⟨fuel - n - 1, by omega⟩
  rw [scan_loop_of_scanSteps hreach]
  simp [scan_loop, hpos, hstep]

/-- A push with `pushlen = 65` whose first data byte is 0x04 ends the run: with the
uncompressed-key error when a byte follows the data, with the invalid-push error
otherwise. -/
theorem scan_step_uncompressed {script : List Nat} {st : ScanState} {ps : Nat}
    (hread : read_push script st.readpos = .ok (65, ps)) (hb : byteAt script ps = 4) :
    scan_step script st
      = .exit (if script.length ≤ ps + 65 then .invalidPush else .uncompressedPubkey) := by
  simp only [scan_step, hread, check_item]
  by_cases h : script.length ≤ ps + 65
  · have h1 : (script.length : Int) ≤ (ps : Int) + 65 := by omega
    simp [h, h1]
  · have h1 : ¬ ((script.length : Int) ≤ (ps : Int) + 65) := by omega
    simp [h, h1, hb]

/-! ## The commitment data -/

/-- Writing `src` at offset `|a|` of a buffer `a ++ b ++ c` with `|b| = |src|`. -/
theorem memcpy_middle (a b c src : List Nat) (h : b.length = src.length) :
    memcpy (a ++ b ++ c) a.length src = a ++ src ++ c := by
  unfold memcpy
  rw [List.append_assoc a b c, List.take_left, ← h,
    show a.length + b.length = (a ++ b).length by simp, ← List.append_assoc, List.drop_left]

/-- A buffer of length at least `m + n` split at `m` and `m + n`. -/
theorem split_three (buf : List Nat) (m n : Nat) (h : m + n ≤ buf.length) :
    ∃ a b c : List Nat, buf = a ++ b ++ c ∧ a.length = m ∧ b.length = n := by
  refine ⟨buf.take m, (buf.drop m).take n, (buf.drop m).drop n, ?_, ?_, ?_⟩
  · rw [List.append_assoc, List.take_append_drop, List.take_append_drop]
  · simp; omega
  · simp; omega

/-- Lines 225-231 leave `tag`, sixteen indeterminate bytes and the payload. -/
theorem address_data_init_eq (uninit tag : List Nat) (ascii : Option (List Nat))
    (p2sh : List Nat) (htag : tag.length = 4) (hp2sh : p2sh.length = 20)
    (hlen : uninit.length = data_len ascii) :
    ∃ gap : List Nat, gap.length = 16 ∧
      address_data_init uninit tag ascii p2sh = tag ++ gap ++ contract_payload ascii p2sh := by
  have hpl : (contract_payload ascii p2sh).length + 20 = uninit.length := by
    rw [hlen]
    cases ascii with
    | none => simp [contract_payload, data_len, hp2sh]
    | some t => simp [contract_payload, data_len]; omega
  obtain ⟨a, b, c, rfl, ha, hb⟩ := split_three uninit 4 16 (by omega)
  refine ⟨b, hb, ?_⟩
  have hc : c.length = (contract_payload ascii p2sh).length := by
    simp at hpl; omega
  have h1 : memset (a ++ b ++ c) 0 0 4 = List.replicate 4 0 ++ b ++ c := by
    unfold memset
    rw [List.append_assoc a b c, ← ha]
    simp
  have h2 : memcpy (List.replicate 4 0 ++ b ++ c) 0 tag = tag ++ b ++ c := by
    have := memcpy_middle [] (List.replicate 4 0) (b ++ c) tag (by simp [htag])
    simpa using this
  have h3 : ∀ pl : List Nat, pl.length = c.length →
      memcpy (tag ++ b ++ c) (4 + 16) pl = tag ++ b ++ pl := by
    intro pl hplc
    have := memcpy_middle (tag ++ b) c [] pl hplc.symm
    simp only [List.append_nil, List.length_append, htag, hb] at this
    exact this
  unfold address_data_init
  simp only [h1, h2]
  cases ascii with
  | none => exact h3 p2sh (by simpa [contract_payload] using hc.symm)
  | some t => exact h3 t (by simpa [contract_payload] using hc.symm)

/-- The buffer address mode hashes is `tag ++ nonce ++ payload`. -/
theorem address_data_eq (uninit tag nonce : List Nat) (ascii : Option (List Nat))
    (p2sh : List Nat) (htag : tag.length = 4) (hnonce : nonce.length = 16)
    (hp2sh : p2sh.length = 20) (hlen : uninit.length = data_len ascii) :
    address_data uninit tag nonce ascii p2sh
      = commitment_blob tag nonce (contract_payload ascii p2sh) := by
  obtain ⟨gap, hgap, h⟩ := address_data_init_eq uninit tag ascii p2sh htag hp2sh hlen
  unfold address_data set_nonce commitment_blob
  rw [h]
  have := memcpy_middle tag gap (contract_payload ascii p2sh) nonce (by omega)
  rw [htag] at this
  exact this

/-- The buffer claim mode hashes is `tag ++ nonce ++ payload`. -/
theorem claim_data_eq (uninit tag nonce : List Nat) (ascii : Option (List Nat))
    (p2sh : List Nat) (htag : tag.length = 4) (hnonce : nonce.length = 16)
    (hp2sh : p2sh.length = 20) (hlen : uninit.length = data_len ascii) :
    claim_data uninit tag nonce ascii p2sh
      = commitment_blob tag nonce (contract_payload ascii p2sh) := by
  have hpl : (contract_payload ascii p2sh).length + 20 = uninit.length := by
    rw [hlen]
    cases ascii with
    | none => simp [contract_payload, data_len, hp2sh]
    | some t => simp [contract_payload, data_len]; omega
  obtain ⟨a, b, c, rfl, ha, hb⟩ := split_three uninit 4 16 (by omega)
  have hc : c.length = (contract_payload ascii p2sh).length := by
    simp at hpl; omega
  have h1 : memset (a ++ b ++ c) 0 0 4 = List.replicate 4 0 ++ b ++ c := by
    unfold memset
    rw [List.append_assoc a b c, ← ha]
    simp
  have h2 : memcpy (List.replicate 4 0 ++ b ++ c) 0 tag = tag ++ b ++ c := by
    have := memcpy_middle [] (List.replicate 4 0) (b ++ c) tag (by simp [htag])
    simpa using this
  have h2b : memcpy (tag ++ b ++ c) 4 nonce = tag ++ nonce ++ c := by
    have := memcpy_middle tag b c nonce (by omega)
    rw [htag] at this
    exact this
  have h3 : ∀ pl : List Nat, pl.length = c.length →
      memcpy (tag ++ nonce ++ c) (4 + 16) pl = tag ++ nonce ++ pl := by
    intro pl hplc
    have := memcpy_middle (tag ++ nonce) c [] pl hplc.symm
    simp only [List.append_nil, List.length_append, htag, hnonce] at this
    exact this
  unfold claim_data commitment_blob
  simp only [h1, h2, h2b]
  cases ascii with
  | none => exact h3 p2sh (by simpa [contract_payload] using hc.symm)
  | some t => exact h3 t (by simpa [contract_payload] using hc.symm)

/-! ## Key tweaking -/

theorem getD_set_self (l : List (List Nat)) (i : Nat) (a : List Nat) (h : i < l.length) :
    (l.set i a).getD i [] = a := by
  simp [List.getD_eq_getElem?_getD, List.getElem?_set, h]

theorem getD_set_ne (l : List (List Nat)) (i j : Nat) (a : List Nat) (h : i ≠ j) :
    (l.set i a).getD j [] = l.getD j [] := by
  simp [List.getD_eq_getElem?_getD, List.getElem?_set, h]

/-- When the `for` loop runs to the end, every slot it visited holds the serialized
tweak of the key that was in that slot, computed with the key itself as the hash key;
the slots before the starting index are untouched. -/
theorem tweak_keys_finished {Point : Type} (P : Primitives Point) (nonce_hex : Bool)
    (data : List Nat) (n i : Nat) (kw kw1 : List (List Nat))
    (h : tweak_keys P nonce_hex data n i kw = .finished kw1) (hlen : i + n ≤ kw.length) :
    kw1.length = kw.length ∧
    (∀ j, j < i → kw1.getD j [] = kw.getD j []) ∧
    (∀ j, i ≤ j → j < i + n → ∃ pt tw,
      P.ec_pubkey_parse (kw.getD j []) = some pt ∧
      P.ec_pubkey_tweak_add pt (P.hmac_sha256 (kw.getD j []) data) = some tw ∧
      kw1.getD j [] = P.ec_pubkey_serialize tw) := by
  induction n generalizing i kw with
  | zero =>
    simp only [tweak_keys, TweakResult.finished.injEq] at h
    subst h
    exact ⟨rfl, fun _ _ => rfl, fun j h1 h2 => absurd h2 (by omega)⟩
  | succ n ih =>
    simp only [tweak_keys] at h
    cases hp : P.ec_pubkey_parse (kw.getD i []) with
    | none =>
      simp only [hp] at h
      cases h
    | some pt =>
      cases ht : P.ec_pubkey_tweak_add pt (P.hmac_sha256 (kw.getD i []) data) with
      | none =>
        simp only [hp, ht] at h
        split at h <;> simp at h
      | some tw =>
        simp only [hp, ht] at h
        split at h
        · obtain ⟨h1, h2, h3⟩ := ih (i + 1) (kw.set i (P.ec_pubkey_serialize tw)) h
            (by simp; omega)
          refine ⟨by simpa using h1, ?_, ?_⟩
          · intro j hj
            rw [h2 j (by omega), getD_set_ne _ _ _ _ (by omega)]
          · intro j hij hjn
            by_cases hji : j = i
            · subst hji
              refine ⟨pt, tw, hp, ht, ?_⟩
              rw [h2 j (by omega), getD_set_self _ _ _ (by omega)]
            · obtain ⟨pt1, tw1, hp1, ht1, hs1⟩ := h3 j (by omega) (by omega)
              rw [getD_set_ne _ _ _ _ (by omega)] at hp1 ht1
              exact ⟨pt1, tw1, hp1, ht1, hs1⟩
        · simp at h

/-- When the retry loop ends at line 258, `data` holds the tag, the final nonce and the
payload, the final nonce is the caller's (fixed mode) or one of the draws, and the final
`keys_work` is the result of one complete pass of the `for` loop over the original keys
under that `data`. -/
theorem nonce_search_found {Point : Type} (P : Primitives Point) (keys : List (List Nat))
    (nonce_hex : Bool) (rand : Nat → List Nat) (tag payload : List Nat)
    (htag : tag.length = 4) (hrand : ∀ j, (rand j).length = 16)
    (fuel reads : Nat) (nonce gap : List Nat) (hgap : gap.length = 16)
    (hnonce : nonce_hex = true → nonce.length = 16)
    (nonce1 data1 : List Nat) (kw1 : List (List Nat))
    (h : nonce_search P keys nonce_hex rand fuel reads nonce (tag ++ gap ++ payload)
      = .found nonce1 data1 kw1) :
    data1 = commitment_blob tag nonce1 payload ∧
    (if nonce_hex = true then nonce1 = nonce else ∃ j, nonce1 = rand j) ∧
    tweak_keys P nonce_hex data1 keys.length 0 keys = .finished kw1 := by
  induction fuel generalizing reads nonce gap with
  | zero => simp [nonce_search] at h
  | succ fuel ih =>
    simp only [nonce_search] at h
    have hn1 : (if nonce_hex = true then nonce else rand reads).length = 16 := by
      split
      · exact hnonce (by assumption)
      · exact hrand reads
    have hd : set_nonce (tag ++ gap ++ payload) (if nonce_hex = true then nonce else rand reads)
        = tag ++ (if nonce_hex = true then nonce else rand reads) ++ payload := by
      have := memcpy_middle tag gap payload (if nonce_hex = true then nonce else rand reads)
        (by omega)
      rw [htag] at this
      exact this
    rw [hd] at h
    split at h
    · simp at h
    · rename_i hstop
      obtain ⟨h1, h2, h3⟩ := ih _ _ _ hn1 (fun _ => hn1) h
      refine ⟨h1, ?_, h3⟩
      revert h2
      cases nonce_hex <;> simp
    · rename_i kw2 hfin
      simp only [SearchOutcome.found.injEq] at h
      obtain ⟨hn, hdd, hk⟩ := h
      subst hn hdd hk
      refine ⟨rfl, ?_, hfin⟩
      cases nonce_hex with
      | true => simp
      | false => exact ⟨reads, rfl⟩

/-! ## Fixed-nonce mode -/

/-- With a caller-supplied nonce the `for` loop never leaves by `break`: an out-of-range
tweak is `ERROREXIT` (line 250). -/
theorem tweak_keys_fixed_not_stopped {Point : Type} (P : Primitives Point) (data : List Nat)
    (n i : Nat) (kw : List (List Nat)) (j : Nat) (kw1 : List (List Nat)) :
    tweak_keys P true data n i kw ≠ .stopped j kw1 := by
  induction n generalizing i kw with
  | zero => simp [tweak_keys]
  | succ n ih =>
    simp only [tweak_keys]
    split
    · simp
    · split
      · simp
      · split
        · exact ih _ _
        · simp

/-- An out-of-range tweak of the key in slot `i`, in fixed mode, makes the pass exit. -/
theorem tweak_keys_fixed_out_of_range {Point : Type} (P : Primitives Point) (data : List Nat)
    (keys : List (List Nat)) (i : Nat) (hi : i < keys.length) (pt : Point)
    (hp : P.ec_pubkey_parse (keys.getD i []) = some pt)
    (ht : P.ec_pubkey_tweak_add pt (P.hmac_sha256 (keys.getD i []) data) = none) :
    ∃ e, tweak_keys P true data keys.length 0 keys = .exit e := by
  cases h : tweak_keys P true data keys.length 0 keys with
  | exit e => exact ⟨e, rfl⟩
  | stopped j kw1 => exact absurd h (tweak_keys_fixed_not_stopped P data _ _ _ j kw1)
  | finished kw1 =>
    obtain ⟨_, _, hk⟩ := tweak_keys_finished P true data keys.length 0 keys kw1 h (by simp)
    obtain ⟨pt1, tw, hp1, ht1, _⟩ := hk i (Nat.zero_le _) (by simpa using hi)
    rw [hp] at hp1
    obtain rfl : pt = pt1 := by simpa using hp1
    rw [ht] at ht1
    cases ht1

/-- In fixed mode address mode is one pass of the `for` loop under the supplied nonce. -/
theorem address_mode_fixed {Point : Type} (P : Primitives Point)
    (redeem_script keys nonce : List Nat) (rand : Nat → List Nat) (uninit tag : List Nat)
    (ascii : Option (List Nat)) (p2sh : List Nat) (fuel : Nat) :
    address_mode P redeem_script keys true nonce rand uninit tag ascii p2sh (fuel + 1)
      = match tweak_keys P true (address_data uninit tag nonce ascii p2sh) keys.length 0
          (keys.map (keyAt redeem_script)) with
        | .finished keys_work =>
          .output nonce (address_data uninit tag nonce ascii p2sh)
            (write_back redeem_script keys keys_work)
        | .exit e => .exit e
        | .stopped _ _ => .outOfFuel := by
  simp only [address_mode, nonce_search, address_data, List.length_map, if_true]
  cases h : tweak_keys P true
      (set_nonce (address_data_init uninit tag ascii p2sh) nonce) keys.length 0
      (keys.map (keyAt redeem_script)) with
  | exit e => rfl
  | stopped j kw1 => exact absurd h (tweak_keys_fixed_not_stopped P _ _ _ _ j kw1)
  | finished kw1 => rfl

/-! ## What a completed iteration can be -/

/-- The six ways `check_item` lets an item pass: (A) a compressed-key push, (B) another
push with no candidates, (C) a multi-signature check while armed, (D) a single-signature
check after one candidate, (E) the arming opcode, (F) another opcode with no
candidates. -/
theorem check_item_ok {script : List Nat} {st st1 : ScanState} {pl : Int} {ps : Nat}
    (h : check_item script st pl ps = .ok st1) :
    (pl > -1 ∧ (ps : Int) + pl < script.length ∧ pl = 33 ∧
      (byteAt script ps = 2 ∨ byteAt script ps = 3) ∧
      st1 = { st with maybe_keys := st.maybe_keys ++ [ps] }) ∨
    (pl > -1 ∧ (ps : Int) + pl < script.length ∧ st.maybe_keys = [] ∧ st1 = st) ∨
    (¬ pl > -1 ∧ st.require_next_checkmultisig = true ∧
      (byteAt script st.readpos = 174 ∨ byteAt script st.readpos = 175) ∧
      st1 = { st with require_next_checkmultisig := false
                      pubkeys := st.pubkeys ++ st.maybe_keys
                      maybe_keys := [] }) ∨
    (¬ pl > -1 ∧ st.require_next_checkmultisig = false ∧ st.maybe_keys.length = 1 ∧
      (byteAt script st.readpos = 172 ∨ byteAt script st.readpos = 173) ∧
      st1 = { st with pubkeys := st.pubkeys ++ [st.maybe_keys.getD 0 0]
                      maybe_keys := [] }) ∨
    (¬ pl > -1 ∧ st.require_next_checkmultisig = false ∧ 0 < st.maybe_keys.length ∧
      (byteAt script st.readpos + 2 ^ 32 - 80) % 2 ^ 32 = st.maybe_keys.length % 2 ^ 32 ∧
      st1 = { st with require_next_checkmultisig := true }) ∨
    (¬ pl > -1 ∧ st.require_next_checkmultisig = false ∧ st.maybe_keys = [] ∧
      ¬ (172 ≤ byteAt script st.readpos ∧ byteAt script st.readpos ≤ 175) ∧ st1 = st) := by
  unfold check_item at h
  simp only at h
  by_cases h1 : pl > -1
  · rw [if_pos h1] at h
    by_cases h2 : (ps : Int) + pl ≥ script.length
    · rw [if_pos h2] at h
      cases h
    · rw [if_neg h2] at h
      by_cases h3 : pl = 65 ∧ byteAt script ps = 4
      · rw [if_pos h3] at h
        cases h
      · rw [if_neg h3] at h
        by_cases h4 : pl = 33 ∧ (byteAt script ps = 2 ∨ byteAt script ps = 3)
        · rw [if_pos h4] at h
          simp only [Except.ok.injEq] at h
          exact Or.inl ⟨h1, by omega, h4.1, h4.2, h.symm⟩
        · rw [if_neg h4] at h
          by_cases h5 : st.maybe_keys.length > 0
          · rw [if_pos h5] at h
            cases h
          · rw [if_neg h5] at h
            simp only [Except.ok.injEq] at h
            exact Or.inr (Or.inl ⟨h1, by omega, List.length_eq_zero.mp (by omega), h.symm⟩)
  · rw [if_neg h1] at h
    by_cases h2 : st.require_next_checkmultisig = true
    · rw [if_pos h2] at h
      by_cases h3 : byteAt script st.readpos = 174 ∨ byteAt script st.readpos = 175
      · rw [if_pos h3] at h
        simp only [Except.ok.injEq] at h
        exact Or.inr (Or.inr (Or.inl ⟨h1, h2, h3, h.symm⟩))
      · rw [if_neg h3] at h
        cases h
    · rw [if_neg h2] at h
      have h2f : st.require_next_checkmultisig = false := by simpa using h2
      by_cases h3 : st.maybe_keys.length > 0
      · rw [if_pos h3] at h
        by_cases h4 : st.maybe_keys.length = 1 ∧
            (byteAt script st.readpos = 172 ∨ byteAt script st.readpos = 173)
        · rw [if_pos h4] at h
          simp only [Except.ok.injEq] at h
          exact Or.inr (Or.inr (Or.inr (Or.inl ⟨h1, h2f, h4.1, h4.2, h.symm⟩)))
        · rw [if_neg h4] at h
          by_cases h5 : (byteAt script st.readpos + 2 ^ 32 - 80) % 2 ^ 32
              = st.maybe_keys.length % 2 ^ 32
          · rw [if_pos h5] at h
            simp only [Except.ok.injEq] at h
            exact Or.inr (Or.inr (Or.inr (Or.inr (Or.inl ⟨h1, h2f, h3, h5, h.symm⟩))))
          · rw [if_neg h5] at h
            cases h
      · rw [if_neg h3] at h
        by_cases h4 : 172 ≤ byteAt script st.readpos ∧ byteAt script st.readpos ≤ 175
        · rw [if_pos h4] at h
          cases h
        · rw [if_neg h4] at h
          simp only [Except.ok.injEq] at h
          exact Or.inr (Or.inr (Or.inr (Or.inr (Or.inr
            ⟨h1, h2f, List.length_eq_zero.mp (by omega), h4, h.symm⟩))))

/-- A completed iteration: the header was decoded, the item passed `check_item`, and the
read position moved to `push_start + pushlen`, or by one when `pushlen` is `-1`. -/
theorem scan_step_next {script : List Nat} {st st2 : ScanState}
    (h : scan_step script st = .next st2) :
    ∃ (pl : Int) (ps : Nat) (st1 : ScanState),
      read_push script st.readpos = .ok (pl, ps) ∧
      check_item script st pl ps = .ok st1 ∧
      st2.maybe_keys = st1.maybe_keys ∧ st2.pubkeys = st1.pubkeys ∧
      st2.require_next_checkmultisig = st1.require_next_checkmultisig ∧
      (pl ≠ -1 → 0 ≤ (ps : Int) + pl ∧ (st2.readpos : Int) = (ps : Int) + pl) ∧
      (pl = -1 → st2.readpos = st1.readpos + 1) := by
  unfold scan_step at h
  split at h
  · cases h
  · rename_i pl ps hread
    split at h
    · cases h
    · rename_i st1 hcheck
      refine ⟨pl, ps, st1, hread, hcheck, ?_⟩
      by_cases h1 : pl ≠ -1
      · rw [if_pos h1] at h
        by_cases h2 : (ps : Int) + pl < 0
        · rw [if_pos h2] at h
          cases h
        · rw [if_neg h2] at h
          simp only [StepResult.next.injEq] at h
          subst h
          refine ⟨rfl, rfl, rfl, fun _ => ⟨by omega, ?_⟩, fun hc => absurd hc h1⟩
          simp only
          omega
      · rw [if_neg h1] at h
        simp only [StepResult.next.injEq] at h
        subst h
        exact ⟨rfl, rfl, rfl, fun hc => absurd hc h1, fun _ => rfl⟩

theorem toInt32_bounds (v : Nat) : -2147483648 ≤ toInt32 v ∧ toInt32 v < 2147483648 := by
  unfold toInt32
  have : v % 2 ^ 32 < 2 ^ 32 := Nat.mod_lt _ (by norm_num)
  split <;> constructor <;> omega

/-- The five ways the header decodes without error. -/
theorem read_push_ok {script : List Nat} {p : Nat} {pl : Int} {ps : Nat}
    (h : read_push script p = .ok (pl, ps)) :
    (0 < byteAt script p ∧ byteAt script p < 76 ∧ pl = (byteAt script p : Int) ∧ ps = p + 1) ∨
    (byteAt script p = 76 ∧ p + 1 < script.length ∧ 0 ≤ pl ∧ pl < 256 ∧ ps = p + 2) ∨
    (byteAt script p = 77 ∧ p + 2 < script.length ∧ 0 ≤ pl ∧ pl < 65536 ∧ ps = p + 3) ∨
    (byteAt script p = 78 ∧ p + 4 < script.length ∧ -2147483648 ≤ pl ∧ pl < 2147483648 ∧
      ps = p + 5) ∨
    ((byteAt script p = 0 ∨ 78 < byteAt script p) ∧ pl = -1 ∧ ps = 0) := by
  by_cases h1 : 0 < byteAt script p ∧ byteAt script p < 76
  · rw [read_push_direct h1] at h
    simp only [Except.ok.injEq, Prod.mk.injEq] at h
    exact Or.inl ⟨h1.1, h1.2, h.1.symm, h.2.symm⟩
  · by_cases h2 : byteAt script p = 76
    · by_cases hl : p + 1 < script.length
      · rw [read_push_76 h2 hl] at h
        simp only [Except.ok.injEq, Prod.mk.injEq] at h
        have := byteAt_lt script (p + 1)
        exact Or.inr (Or.inl ⟨h2, hl, by omega, by omega, h.2.symm⟩)
      · simp [read_push, h2, Nat.not_lt.mp hl] at h
    · by_cases h3 : byteAt script p = 77
      · by_cases hl : p + 2 < script.length
        · rw [read_push_77 h3 hl] at h
          simp only [Except.ok.injEq, Prod.mk.injEq] at h
          have := byteAt_lt script (p + 1)
          have := byteAt_lt script (p + 2)
          exact Or.inr (Or.inr (Or.inl ⟨h3, hl, by omega, by omega, h.2.symm⟩))
        · simp [read_push, h3, Nat.not_lt.mp hl] at h
      · by_cases h4 : byteAt script p = 78
        · by_cases hl : p + 4 < script.length
          · rw [read_push_78 h4 hl] at h
            simp only [Except.ok.injEq, Prod.mk.injEq] at h
            have hb := toInt32_bounds (byteAt script (p + 1) + 256 * byteAt script (p + 2)
              + 65536 * byteAt script (p + 3) + 16777216 * byteAt script (p + 4))
            rw [h.1] at hb
            exact Or.inr (Or.inr (Or.inr (Or.inl ⟨h4, hl, hb.1, hb.2, h.2.symm⟩)))
          · simp [read_push, h4, Nat.not_lt.mp hl] at h
        · have h5 : byteAt script p = 0 ∨ 78 < byteAt script p := by omega
          rw [read_push_opcode h5] at h
          simp only [Except.ok.injEq, Prod.mk.injEq] at h
          exact Or.inr (Or.inr (Or.inr (Or.inr ⟨h5, h.1.symm, h.2.symm⟩)))

/-- A header that fails to decode is a length prefix cut off by the end of the script. -/
theorem read_push_error {script : List Nat} {p : Nat} {e : ScriptError}
    (h : read_push script p = .error e) :
    e = .invalidPush ∧
    ((byteAt script p = 76 ∧ script.length ≤ p + 1) ∨
     (byteAt script p = 77 ∧ script.length ≤ p + 2) ∨
     (byteAt script p = 78 ∧ script.length ≤ p + 4)) := by
  by_cases h1 : 0 < byteAt script p ∧ byteAt script p < 76
  · rw [read_push_direct h1] at h
    cases h
  · by_cases h2 : byteAt script p = 76
    · by_cases hl : p + 1 < script.length
      · rw [read_push_76 h2 hl] at h
        cases h
      · have hl2 := Nat.not_lt.mp hl
        simp [read_push, h2, hl2] at h
        exact ⟨h.symm, Or.inl ⟨h2, hl2⟩⟩
    · by_cases h3 : byteAt script p = 77
      · by_cases hl : p + 2 < script.length
        · rw [read_push_77 h3 hl] at h
          cases h
        · have hl2 := Nat.not_lt.mp hl
          simp [read_push, h3, hl2] at h
          exact ⟨h.symm, Or.inr (Or.inl ⟨h3, hl2⟩)⟩
      · by_cases h4 : byteAt script p = 78
        · by_cases hl : p + 4 < script.length
          · rw [read_push_78 h4 hl] at h
            cases h
          · have hl2 := Nat.not_lt.mp hl
            simp [read_push, h4, hl2] at h
            exact ⟨h.symm, Or.inr (Or.inr ⟨h4, hl2⟩)⟩
        · have h5 : byteAt script p = 0 ∨ 78 < byteAt script p := by omega
          rw [read_push_opcode h5] at h
          cases h

/-! ## Invariants of the scan -/

/-- A property of the locals that holds initially and survives every completed iteration
holds after any number of completed iterations. -/
theorem scanSteps_invariant {script : List Nat} (Inv : ScanState → Prop)
    (hstep : ∀ st st2, Inv st → st.readpos < script.length →
      scan_step script st = .next st2 → Inv st2)
    {n : Nat} {st0 st : ScanState} (h0 : Inv st0)
    (h : scanSteps script n st0 = some st) : Inv st := by
  induction n generalizing st0 with
  | zero =>
    simp only [scanSteps, Option.some.injEq] at h
    exact h ▸ h0
  | succ n ih =>
    simp only [scanSteps] at h
    split at h
    · rename_i hpos
      split at h
      · rename_i st1 hs
        exact ih (hstep _ _ h0 hpos hs) h
      · cases h
    · cases h

/-- The flag `require_next_checkmultisig` is only ever set while there are candidates. -/
theorem armed_has_candidates {script : List Nat} {n : Nat} {st : ScanState}
    (h : scanSteps script n initState = some st) :
    st.require_next_checkmultisig = true → st.maybe_keys ≠ [] := by
  refine scanSteps_invariant
    (fun s => s.require_next_checkmultisig = true → s.maybe_keys ≠ []) ?_ ?_ h
  · intro st st2 hinv _ hs
    obtain ⟨pl, ps, st1, _, hcheck, hmk, _, hreq, _, _⟩ := scan_step_next hs
    rw [hmk, hreq]
    rcases check_item_ok hcheck with
      ⟨_, _, _, _, rfl⟩ | ⟨_, _, hempty, rfl⟩ | ⟨_, _, _, rfl⟩ | ⟨_, hf, _, _, rfl⟩ |
      ⟨_, _, hpos, _, rfl⟩ | ⟨_, hf, _, _, rfl⟩
    · intro _; simp
    · intro hr; exact absurd hempty (hinv hr)
    · intro hr; simp at hr
    · intro hr; simp only at hr; rw [hf] at hr; cases hr
    · intro _; simp only; exact List.ne_nil_of_length_pos hpos
    · intro hr; rw [hf] at hr; cases hr
  · intro hr
    simp [initState] at hr

/-- With a script shorter than `2 ^ 32` bytes (`redeem_script_len` is an `unsigned int`),
every candidate accounts for 34 bytes before the read position, which never passes the
end of the script. -/
theorem candidates_bound {script : List Nat} (hL : script.length < 2 ^ 32) {n : Nat}
    {st : ScanState} (h : scanSteps script n initState = some st) :
    st.maybe_keys.length * 34 ≤ st.readpos ∧ st.readpos ≤ script.length := by
  refine scanSteps_invariant
    (fun s => s.maybe_keys.length * 34 ≤ s.readpos ∧ s.readpos ≤ script.length) ?_ ?_ h
  · intro st st2 hinv hpos hs
    obtain ⟨hcount, _⟩ := hinv
    obtain ⟨pl, ps, st1, hread, hcheck, hmk, _, _, hmove, hone⟩ := scan_step_next hs
    have hrp := read_push_ok hread
    have hb := byteAt_lt script st.readpos
    show st2.maybe_keys.length * 34 ≤ st2.readpos ∧ st2.readpos ≤ script.length
    rw [hmk]
    rcases check_item_ok hcheck with
      ⟨hpl, hend, h33, _, rfl⟩ | ⟨hpl, hend, hempty, rfl⟩ | ⟨hpl, _, hop, rfl⟩ |
      ⟨hpl, _, _, hop, rfl⟩ | ⟨hpl, _, _, harm, rfl⟩ | ⟨hpl, _, hempty, _, rfl⟩
    · obtain ⟨_, hr⟩ := hmove (by omega)
      simp only [List.length_append, List.length_singleton]
      rcases hrp with ⟨_, _, _, e⟩ | ⟨_, _, _, _, e⟩ | ⟨_, _, _, _, e⟩ | ⟨_, _, _, _, e⟩ |
        ⟨_, e, _⟩ <;> omega
    · obtain ⟨_, hr⟩ := hmove (by omega)
      simp only [hempty, List.length_nil]
      omega
    · simp only [List.length_nil]
      have hm1 : pl = -1 := by
        rcases hrp with ⟨_, _, _, _⟩ | ⟨_, _, _, _, _⟩ | ⟨_, _, _, _, _⟩ | ⟨_, _, _, _, _⟩ |
          ⟨_, e, _⟩ <;> omega
      have := hone hm1
      simp only at this
      omega
    · simp only [List.length_nil]
      have hm1 : pl = -1 := by
        rcases hrp with ⟨_, _, _, _⟩ | ⟨_, _, _, _, _⟩ | ⟨_, _, _, _, _⟩ | ⟨_, _, _, _, _⟩ |
          ⟨_, e, _⟩ <;> omega
      have := hone hm1
      simp only at this
      omega
    · simp only
      have hm1 : pl = -1 := by
        rcases hrp with ⟨_, _, _, _⟩ | ⟨_, _, _, _, _⟩ | ⟨_, _, _, _, _⟩ | ⟨h78, _, _, _, _⟩ |
          ⟨_, e, _⟩
        · omega
        · omega
        · omega
        · rw [h78] at harm
          omega
        · exact e
      have := hone hm1
      simp only at this
      omega
    · simp only [hempty, List.length_nil]
      by_cases hm1 : pl = -1
      · have := hone hm1
        omega
      · obtain ⟨_, hr⟩ := hmove hm1
        rcases hrp with ⟨_, _, _, _⟩ | ⟨_, _, _, _, _⟩ | ⟨_, _, _, _, _⟩ | ⟨_, _, _, _, e⟩ |
          ⟨_, e, _⟩ <;> omega
  · simp [initState]

/-! ## Iterations that end the run -/

/-- A check opcode met with no candidates and the flag not armed ends the run. -/
theorem scan_step_checksig_without_keys {script : List Nat} {st : ScanState}
    (hop : 172 ≤ byteAt script st.readpos ∧ byteAt script st.readpos ≤ 175)
    (hempty : st.maybe_keys = []) (hreq : st.require_next_checkmultisig = false) :
    scan_step script st = .exit .checksigWithoutKeys := by
  have hread : read_push script st.readpos = .ok (-1, 0) := read_push_opcode (by omega)
  simp only [scan_step, hread, check_item]
  simp [hreq, hempty, hop]

/-- A push header met while there are candidates, when the item is not a compressed-key
push and fewer than `2 ^ 32 - 2` candidates are held, ends the run. -/
theorem scan_step_push_with_candidates {script : List Nat} {st : ScanState}
    (hop : 0 < byteAt script st.readpos ∧ byteAt script st.readpos ≤ 78)
    (hcand : 0 < st.maybe_keys.length) (hcount : st.maybe_keys.length < 4294967294)
    (hnotkey : ∀ ps, read_push script st.readpos = .ok (33, ps) →
      ¬ (byteAt script ps = 2 ∨ byteAt script ps = 3)) :
    ∃ e, scan_step script st = .exit e ∧
      (e = .invalidPush ∨ e = .uncompressedPubkey ∨ e = .keysNotUsed) := by
  cases hread : read_push script st.readpos with
  | error e =>
    refine ⟨e, by simp only [scan_step, hread], Or.inl (read_push_error hread).1⟩
  | ok r =>
    obtain ⟨pl, ps⟩ := r
    have hrp := read_push_ok hread
    by_cases hpl : pl > -1
    · by_cases h2 : (ps : Int) + pl ≥ script.length
      · refine ⟨.invalidPush, ?_, Or.inl rfl⟩
        simp only [scan_step, hread, check_item]
        rw [if_pos hpl, if_pos h2]
      · by_cases h3 : pl = 65 ∧ byteAt script ps = 4
        · refine ⟨.uncompressedPubkey, ?_, Or.inr (Or.inl rfl)⟩
          simp only [scan_step, hread, check_item]
          rw [if_pos hpl, if_neg h2, if_pos h3]
        · have h4 : ¬ (pl = 33 ∧ (byteAt script ps = 2 ∨ byteAt script ps = 3)) := by
            rintro ⟨h33, hk⟩
            subst h33
            exact hnotkey ps hread hk
          refine ⟨.keysNotUsed, ?_, Or.inr (Or.inr rfl)⟩
          simp only [scan_step, hread, check_item]
          rw [if_pos hpl, if_neg h2, if_neg h3, if_neg h4, if_pos hcand]
    · have h78 : byteAt script st.readpos = 78 := by
        rcases hrp with ⟨_, _, _, _⟩ | ⟨_, _, _, _, _⟩ | ⟨_, _, _, _, _⟩ | ⟨h, _, _, _, _⟩ |
          ⟨_, _, _⟩ <;> omega
      refine ⟨.keysNotUsed, ?_, Or.inr (Or.inr rfl)⟩
      simp only [scan_step, hread, check_item, h78]
      rw [if_neg hpl]
      by_cases hreq : st.require_next_checkmultisig = true
      · rw [if_pos hreq, if_neg (by omega)]
      · rw [if_neg hreq, if_pos hcand, if_neg (by omega), if_neg (by omega)]

/-- A push whose header decodes to a non-negative `pushlen` and whose data would end at or
after the end of the script ends the run with the invalid-push error. -/
theorem scan_step_push_past_end {script : List Nat} {st : ScanState} {pl : Int} {ps : Nat}
    (hread : read_push script st.readpos = .ok (pl, ps)) (hpl : 0 ≤ pl)
    (hend : (script.length : Int) ≤ (ps : Int) + pl) :
    scan_step script st = .exit .invalidPush := by
  simp only [scan_step, hread, check_item]
  rw [if_pos (by omega), if_pos (by omega)]

/-- The part of the truncated-push property the code has: a length prefix cut off by the
end of the script, or data of a non-negative `pushlen` reaching past the end, ends the
run with the invalid-push error. -/
theorem truncated_push_rejected_of_nonneg (script : List Nat) (n : Nat) (st : ScanState)
    (hreach : scanSteps script n initState = some st) (hpos : st.readpos < script.length)
    (fuel : Nat) (hfuel : n < fuel) :
    (∀ e, read_push script st.readpos = .error e →
      get_pubkeys_from_redeemscript fuel script = .exit .invalidPush) ∧
    (∀ pl ps, read_push script st.readpos = .ok (pl, ps) → 0 ≤ pl →
      (script.length : Int) < (ps : Int) + pl →
      get_pubkeys_from_redeemscript fuel script = .exit .invalidPush) := by
  constructor
  · intro e he
    have hstep : scan_step script st = .exit .invalidPush := by
      simp only [scan_step, he, (read_push_error he).1]
    exact scan_loop_exit_of_scanSteps hreach hpos hstep fuel hfuel
  · intro pl ps hread hpl hend
    exact scan_loop_exit_of_scanSteps hreach hpos
      (scan_step_push_past_end hread hpl (by omega)) fuel hfuel

/-- An iteration that does not meet `OP_PUSHDATA4` and completes moves the read position
forward and not beyond the end of the script. -/
theorem scan_step_progress {script : List Nat} {st st2 : ScanState}
    (hpos : st.readpos < script.length) (hop : byteAt script st.readpos ≠ 78)
    (h : scan_step script st = .next st2) :
    st.readpos < st2.readpos ∧ st2.readpos ≤ script.length := by
  obtain ⟨pl, ps, st1, hread, hcheck, _, _, _, hmove, hone⟩ := scan_step_next h
  have hr1 : st1.readpos = st.readpos := by
    rcases check_item_ok hcheck with
      ⟨_, _, _, _, rfl⟩ | ⟨_, _, _, rfl⟩ | ⟨_, _, _, rfl⟩ | ⟨_, _, _, _, rfl⟩ |
      ⟨_, _, _, _, rfl⟩ | ⟨_, _, _, _, rfl⟩ <;> rfl
  have hend : pl > -1 → (ps : Int) + pl < script.length := by
    intro hpl
    rcases check_item_ok hcheck with
      ⟨_, he, _, _, _⟩ | ⟨_, he, _, _⟩ | ⟨hn, _, _, _⟩ | ⟨hn, _, _, _, _⟩ |
      ⟨hn, _, _, _, _⟩ | ⟨hn, _, _, _, _⟩
    · exact he
    · exact he
    · exact absurd hpl hn
    · exact absurd hpl hn
    · exact absurd hpl hn
    · exact absurd hpl hn
  have hb := byteAt_lt script st.readpos
  rcases read_push_ok hread with ⟨_, _, e1, e2⟩ | ⟨_, _, _, _, e2⟩ | ⟨_, _, _, _, e2⟩ |
    ⟨h78, _, _, _, _⟩ | ⟨_, e1, _⟩
  · obtain ⟨_, hr⟩ := hmove (by omega)
    have := hend (by omega)
    omega
  · obtain ⟨_, hr⟩ := hmove (by omega)
    have := hend (by omega)
    omega
  · obtain ⟨_, hr⟩ := hmove (by omega)
    have := hend (by omega)
    omega
  · exact absurd h78 hop
  · have := hone e1
    omega

/-! ## The claims -/

/-- C1 (multisig grammar). For `N ≥ 1` compressed keys, each pushed in any of the four push
forms, followed by the opcode `80 + N` (a single byte) and `c ∈ {174, 175}`,
`get_pubkeys_from_redeemscript` returns (with any fuel above the `N + 2` script items)
exactly `N` key pointers, the `i`-th addressing the `i`-th pushed key. -/
theorem multisig_grammar (ks : List (PushForm × List Nat)) (c : Nat)
    (hN : 1 ≤ ks.length) (hbyte : 80 + ks.length < 256)
    (hks : ∀ p ∈ ks, isCompressedKey p.2) (hc : c = 174 ∨ c = 175)
    (fuel : Nat) (hfuel : ks.length + 2 < fuel) :
    ∃ offs : List Nat,
      get_pubkeys_from_redeemscript fuel (encodePushes ks ++ [80 + ks.length, c]) = .ret offs ∧
      offs.length = ks.length ∧
      offs.map (keyAt (encodePushes ks ++ [80 + ks.length, c])) = ks.map Prod.snd := by
  have hwf : ∀ g ∈ [KeyGroup.multi ks c], g.wellFormed := by
    intro g hg
    rw [List.mem_singleton] at hg
    subst hg
    exact ⟨hN, hbyte, hks, hc⟩
  obtain ⟨offs, hret, hmap⟩ := scan_loop_groups [KeyGroup.multi ks c] hwf fuel
    (by simpa [groupsItems, KeyGroup.items] using hfuel)
  have hs : encodeGroups [KeyGroup.multi ks c] = encodePushes ks ++ [80 + ks.length, c] := by
    simp [encodeGroups, KeyGroup.encode]
  have hk : groupsKeys [KeyGroup.multi ks c] = ks.map Prod.snd := by
    simp [groupsKeys, KeyGroup.keys]
  rw [hs] at hret hmap
  rw [hk] at hmap
  refine ⟨offs, hret, ?_, hmap⟩
  simpa using congrArg List.length hmap

/-- Instance of C1: two keys (one direct push, one `OP_PUSHDATA1` push), `OP_2`,
`OP_CHECKMULTISIG`. -/
theorem multisig_grammar_witness :
    (∀ p ∈ [(PushForm.direct, sampleKeyA), (PushForm.pushdata1, sampleKeyB)],
        isCompressedKey p.2) ∧
    ∃ offs : List Nat,
      get_pubkeys_from_redeemscript 5
          (encodePushes [(PushForm.direct, sampleKeyA), (PushForm.pushdata1, sampleKeyB)]
            ++ [80 + 2, 174]) = .ret offs ∧
      offs.length = 2 ∧
      offs.map (keyAt (encodePushes [(PushForm.direct, sampleKeyA),
          (PushForm.pushdata1, sampleKeyB)] ++ [80 + 2, 174])) = [sampleKeyA, sampleKeyB] :=
  ⟨by decide,
   multisig_grammar [(PushForm.direct, sampleKeyA), (PushForm.pushdata1, sampleKeyB)] 174
    (by decide) (by decide) (by decide) (by decide) 5 (by decide)⟩

/-- C2 (single-sig grammar). For a compressed key `k`, pushed in any of the four push forms
and followed by `c ∈ {172, 173}`, `get_pubkeys_from_redeemscript` returns (with any
fuel above the two script items) exactly one key pointer, addressing the 33 pushed bytes. -/
theorem single_sig_grammar (f : PushForm) (k : List Nat) (c : Nat)
    (hk : isCompressedKey k) (hc : c = 172 ∨ c = 173) (fuel : Nat) (hfuel : 2 < fuel) :
    ∃ off : Nat,
      get_pubkeys_from_redeemscript fuel (encodePush f k ++ [c]) = .ret [off] ∧
      keyAt (encodePush f k ++ [c]) off = k := by
  have hwf : ∀ g ∈ [KeyGroup.single f k c], g.wellFormed := by
    intro g hg
    rw [List.mem_singleton] at hg
    subst hg
    exact ⟨hk, hc⟩
  obtain ⟨offs, hret, hmap⟩ := scan_loop_groups [KeyGroup.single f k c] hwf fuel
    (by simpa [groupsItems, KeyGroup.items] using hfuel)
  have hs : encodeGroups [KeyGroup.single f k c] = encodePush f k ++ [c] := by
    simp [encodeGroups, KeyGroup.encode]
  have hkeys : groupsKeys [KeyGroup.single f k c] = [k] := by
    simp [groupsKeys, KeyGroup.keys]
  rw [hs] at hret hmap
  rw [hkeys] at hmap
  cases offs with
  | nil => simp at hmap
  | cons off tl =>
    cases tl with
    | nil => exact ⟨off, hret, by simpa using hmap⟩
    | cons _ _ => simp at hmap

/-- Instance of C2: a key pushed with `OP_PUSHDATA4` followed by `OP_CHECKSIGVERIFY`. -/
theorem single_sig_grammar_witness :
    isCompressedKey sampleKeyB ∧
    ∃ off : Nat,
      get_pubkeys_from_redeemscript 3 (encodePush PushForm.pushdata4 sampleKeyB ++ [173])
        = .ret [off] ∧
      keyAt (encodePush PushForm.pushdata4 sampleKeyB ++ [173]) off = sampleKeyB :=
  ⟨by decide,
   single_sig_grammar PushForm.pushdata4 sampleKeyB 173 (by decide) (by decide) 3 (by decide)⟩

/-- C3, evaluated on `scriptEndingArmed` (two compressed keys, the first followed by
`OP_CHECKSIG`, the second by `OP_1` and the end of the script): after four iterations
the scan is at the end of the script with the second key (offset 36) still a candidate
and the flag armed, and the function returns the first key (offset 1) only. -/
theorem unconsumed_candidate_at_end :
    scanSteps scriptEndingArmed 4 initState
      = some { readpos := 70, maybe_keys := [36], pubkeys := [1],
               require_next_checkmultisig := true } ∧
    scriptEndingArmed.length = 70 ∧
    isCompressedKey (keyAt scriptEndingArmed 36) ∧
    keyAt scriptEndingArmed 36 = generatorKey ∧
    ∀ d : Nat, get_pubkeys_from_redeemscript (5 + d) scriptEndingArmed = .ret [1] := by
  have h : scanSteps scriptEndingArmed 4 initState
      = some { readpos := 70, maybe_keys := [36], pubkeys := [1],
               require_next_checkmultisig := true } := by decide
  refine ⟨h, by decide, by decide, by decide, fun d => ?_⟩
  have e : 5 + d = 4 + (d + 1) := by omega
  rw [get_pubkeys_from_redeemscript, e, scan_loop_of_scanSteps h, scan_loop_at_end]
  decide

/-- C4, evaluated on `scriptKeyAfterArming` (a compressed key, `OP_1`, a second
compressed key, `OP_CHECKMULTISIG`): after two iterations the flag is armed with one
candidate, the next item (offset 35) is a direct push of 33 bytes holding a compressed
key, and the function does not fail but returns both keys (offsets 1 and 36). -/
theorem key_push_after_arming_accepted :
    scanSteps scriptKeyAfterArming 2 initState
      = some { readpos := 35, maybe_keys := [1], pubkeys := [],
               require_next_checkmultisig := true } ∧
    byteAt scriptKeyAfterArming 35 = 33 ∧
    isCompressedKey (keyAt scriptKeyAfterArming 36) ∧
    ∀ d : Nat, get_pubkeys_from_redeemscript (5 + d) scriptKeyAfterArming = .ret [1, 36] := by
  have h : scanSteps scriptKeyAfterArming 4 initState
      = some { readpos := 70, maybe_keys := [], pubkeys := [1, 36],
               require_next_checkmultisig := false } := by decide
  refine ⟨by decide, by decide, by decide, fun d => ?_⟩
  have e : 5 + d = 4 + (d + 1) := by omega
  rw [get_pubkeys_from_redeemscript, e, scan_loop_of_scanSteps h, scan_loop_at_end]
  decide

/-- C5 (uncompressed rejection). Let the script be `pre`, then the header (in any of the
four push forms) of a push of 65 bytes, then `tail`, whose first byte, the first data
byte, is 0x04. If after `n` completed iterations the scan stands at that header, then
with any fuel above `n` the function ends in `ERROREXIT`, whatever `pre` and `tail` are:
with the uncompressed-key error when `tail` is longer than the 65 data bytes, and with
the invalid-push error when nothing follows them or the script ends inside them. -/
theorem uncompressed_key_rejected (pre tail : List Nat) (f : PushForm) (n : Nat)
    (st : ScanState) (hfirst : tail.getD 0 0 = 4)
    (hreach : scanSteps (pre ++ (push_header f 65 ++ tail)) n initState = some st)
    (hpos : st.readpos = pre.length) (fuel : Nat) (hfuel : n < fuel) :
    get_pubkeys_from_redeemscript fuel (pre ++ (push_header f 65 ++ tail))
      = .exit (if tail.length ≤ 65 then .invalidPush else .uncompressedPubkey) := by
  have hread := read_push_header pre tail f 65 (fits_65 f)
  have htl : 0 < tail.length := by
    rcases tail with _ | ⟨b, tl⟩
    · simp at hfirst
    · simp
  have hb : byteAt (pre ++ (push_header f 65 ++ tail)) (pre.length + (push_header f 65).length)
      = 4 := by
    have e : pre ++ (push_header f 65 ++ tail) = (pre ++ push_header f 65) ++ tail := by simp
    have el : pre.length + (push_header f 65).length = (pre ++ push_header f 65).length := by
      simp
    rw [e, el, byteAt_append_right_zero, byteAt, hfirst]
  rw [← hpos] at hread
  have hread2 : read_push (pre ++ (push_header f 65 ++ tail)) st.readpos
      = .ok (65, pre.length + (push_header f 65).length) := by
    rw [hread, hpos]; rfl
  have hstep := scan_step_uncompressed hread2 hb
  have hl : (pre ++ (push_header f 65 ++ tail)).length
      = pre.length + (push_header f 65).length + tail.length := by
    simp; omega
  have hcond : ((pre ++ (push_header f 65 ++ tail)).length
      ≤ pre.length + (push_header f 65).length + 65) ↔ tail.length ≤ 65 := by
    rw [hl]; omega
  have hlt : st.readpos < (pre ++ (push_header f 65 ++ tail)).length := by
    rw [hl, hpos]; omega
  have := scan_loop_exit_of_scanSteps hreach hlt hstep fuel hfuel
  rw [get_pubkeys_from_redeemscript, this]
  simp only [hcond]

/-- Instance of C5: a complete single-signature group precedes the 65-byte push, made
with `OP_PUSHDATA1`, and a check opcode follows it. -/
theorem uncompressed_key_rejected_witness :
    (sampleUncompressed ++ [172]).getD 0 0 = 4 ∧
    scanSteps ((encodePush .direct sampleKeyA ++ [172])
        ++ (push_header .pushdata1 65 ++ (sampleUncompressed ++ [172]))) 2 initState
      = some { readpos := 35, maybe_keys := [], pubkeys := [1],
               require_next_checkmultisig := false } ∧
    get_pubkeys_from_redeemscript 3 ((encodePush .direct sampleKeyA ++ [172])
        ++ (push_header .pushdata1 65 ++ (sampleUncompressed ++ [172])))
      = .exit (if (sampleUncompressed ++ [172]).length ≤ 65 then .invalidPush
          else .uncompressedPubkey) :=
  ⟨by decide, by decide,
   uncompressed_key_rejected (encodePush .direct sampleKeyA ++ [172])
    (sampleUncompressed ++ [172]) .pushdata1 2
    { readpos := 35, maybe_keys := [], pubkeys := [1], require_next_checkmultisig := false }
    (by decide) (by decide) (by decide) 3 (by decide)⟩

/-- C6 (multiple key groups). For every list of well-formed key groups (one compressed-key
push and 172/173, or `N ≥ 1` compressed-key pushes, `80 + N` and 174/175),
`get_pubkeys_from_redeemscript` on the concatenated groups returns (with any fuel above
the number of script items), and the returned pointers address the concatenation of the
groups' keys in encounter order. -/
theorem key_groups_in_encounter_order (gs : List KeyGroup) (hgs : ∀ g ∈ gs, g.wellFormed)
    (fuel : Nat) (hfuel : groupsItems gs < fuel) :
    ∃ offs : List Nat,
      get_pubkeys_from_redeemscript fuel (encodeGroups gs) = .ret offs ∧
      offs.map (keyAt (encodeGroups gs)) = groupsKeys gs :=
  scan_loop_groups gs hgs fuel hfuel

/-- Instance of C6: a single-signature group followed by a 1-of-1 multi-signature group. -/
theorem key_groups_in_encounter_order_witness :
    (∀ g ∈ [KeyGroup.single PushForm.pushdata2 sampleKeyA 172,
            KeyGroup.multi [(PushForm.direct, sampleKeyB)] 175], g.wellFormed) ∧
    ∃ offs : List Nat,
      get_pubkeys_from_redeemscript 6
          (encodeGroups [KeyGroup.single PushForm.pushdata2 sampleKeyA 172,
            KeyGroup.multi [(PushForm.direct, sampleKeyB)] 175]) = .ret offs ∧
      offs.map (keyAt (encodeGroups [KeyGroup.single PushForm.pushdata2 sampleKeyA 172,
            KeyGroup.multi [(PushForm.direct, sampleKeyB)] 175]))
        = groupsKeys [KeyGroup.single PushForm.pushdata2 sampleKeyA 172,
            KeyGroup.multi [(PushForm.direct, sampleKeyB)] 175] :=
  ⟨by decide,
   key_groups_in_encounter_order
    [KeyGroup.single PushForm.pushdata2 sampleKeyA 172,
      KeyGroup.multi [(PushForm.direct, sampleKeyB)] 175]
    (by decide) 6 (by decide)⟩

/-- C7 (nonce-search atomicity). Whenever address mode gets past the retry loop and
prints its output, the printed contract is `tag ++ nonce ++ payload` for the printed
nonce (the caller's in fixed mode, one of the draws otherwise), and the script printed
is the original with, for every key index `i`, the bytes
`serialize(tweak_add(parse(orig_i), hmac(orig_i, contract)))` copied to `keys[i]`, where
`orig_i` are the bytes behind `keys[i]` in the original script: every key is tweaked
once, from its original value, under the final nonce, whatever happened in earlier
attempts. -/
theorem nonce_search_atomicity {Point : Type} (P : Primitives Point)
    (redeem_script keys : List Nat) (nonce_hex : Bool) (nonce : List Nat)
    (rand : Nat → List Nat) (uninit tag : List Nat) (ascii : Option (List Nat))
    (p2sh : List Nat) (fuel : Nat)
    (htag : tag.length = 4) (hp2sh : p2sh.length = 20) (hlen : uninit.length = data_len ascii)
    (hnonce : nonce_hex = true → nonce.length = 16) (hrand : ∀ j, (rand j).length = 16)
    (nonce_final data_final script_final : List Nat)
    (hout : address_mode P redeem_script keys nonce_hex nonce rand uninit tag ascii p2sh fuel
      = .output nonce_final data_final script_final) :
    data_final = commitment_blob tag nonce_final (contract_payload ascii p2sh) ∧
    (if nonce_hex = true then nonce_final = nonce else ∃ j, nonce_final = rand j) ∧
    ∃ keys_work : List (List Nat),
      keys_work.length = keys.length ∧
      script_final = write_back redeem_script keys keys_work ∧
      ∀ i, i < keys.length → ∃ pt tw,
        P.ec_pubkey_parse (keyAt redeem_script (keys.getD i 0)) = some pt ∧
        P.ec_pubkey_tweak_add pt
          (P.hmac_sha256 (keyAt redeem_script (keys.getD i 0)) data_final) = some tw ∧
        keys_work.getD i [] = P.ec_pubkey_serialize tw := by
  obtain ⟨gap, hgap, hinit⟩ := address_data_init_eq uninit tag ascii p2sh htag hp2sh hlen
  simp only [address_mode, hinit] at hout
  split at hout
  · cases hout
  · cases hout
  · rename_i nonce1 data1 kw1 hfound
    simp only [AddressOutcome.output.injEq] at hout
    obtain ⟨hn, hd, hs⟩ := hout
    subst hn hd
    obtain ⟨h1, h2, h3⟩ := nonce_search_found P (keys.map (keyAt redeem_script)) nonce_hex rand
      tag (contract_payload ascii p2sh) htag hrand fuel 0 nonce gap hgap hnonce _ _ _ hfound
    obtain ⟨hl, _, hk⟩ := tweak_keys_finished P nonce_hex _ _ 0 _ kw1 h3 (by simp)
    refine ⟨h1, h2, kw1, by simpa using hl, hs.symm, ?_⟩
    intro i hi
    obtain ⟨pt, tw, hp, ht, hw⟩ := hk i (Nat.zero_le _) (by simpa using hi)
    have hget : (keys.map (keyAt redeem_script)).getD i [] = keyAt redeem_script (keys.getD i 0) := by
      simp [List.getD_eq_getElem?_getD, List.getElem?_map, hi]
    rw [hget] at hp ht
    exact ⟨pt, tw, hp, ht, hw⟩

/-- Instance of C7 on the 2-of-2 sample script with the toy primitives and the draws
`0…0`, `1…1`, …: under the first draw the first key tweaks and the second is out of
range, under the second draw both tweak, and the output is made from the second draw
alone. -/
theorem nonce_search_atomicity_witness :
    tweak_keys toyPrimitives false
        (address_data (List.replicate 40 5) [80, 50, 83, 72] (List.replicate 16 0) none
          (List.replicate 20 3)) 2 0 ([1, 35].map (keyAt sampleMultisig))
      = .stopped 1 [0 :: 8 :: List.replicate 31 0, sampleKeyB] ∧
    address_mode toyPrimitives sampleMultisig [1, 35] false [] (fun j => List.replicate 16 j)
        (List.replicate 40 5) [80, 50, 83, 72] none (List.replicate 20 3) 2
      = .output (List.replicate 16 1)
          ([80, 50, 83, 72] ++ List.replicate 16 1 ++ List.replicate 20 3)
          ([33, 0, 9] ++ List.replicate 31 0 ++ [33, 0, 10] ++ List.replicate 31 0
            ++ [82, 174]) ∧
    ([80, 50, 83, 72] ++ List.replicate 16 1 ++ List.replicate 20 3
        = commitment_blob [80, 50, 83, 72] (List.replicate 16 1)
            (contract_payload none (List.replicate 20 3)) ∧
      (if false = true then List.replicate 16 1 = []
        else ∃ j, List.replicate 16 1 = (fun j => List.replicate 16 j) j) ∧
      ∃ keys_work : List (List Nat),
        keys_work.length = [1, 35].length ∧
        [33, 0, 9] ++ List.replicate 31 0 ++ [33, 0, 10] ++ List.replicate 31 0 ++ [82, 174]
          = write_back sampleMultisig [1, 35] keys_work ∧
        ∀ i, i < [1, 35].length → ∃ pt tw,
          toyPrimitives.ec_pubkey_parse (keyAt sampleMultisig ([1, 35].getD i 0)) = some pt ∧
          toyPrimitives.ec_pubkey_tweak_add pt
            (toyPrimitives.hmac_sha256 (keyAt sampleMultisig ([1, 35].getD i 0))
              ([80, 50, 83, 72] ++ List.replicate 16 1 ++ List.replicate 20 3)) = some tw ∧
          keys_work.getD i [] = toyPrimitives.ec_pubkey_serialize tw) :=
  ⟨by decide, by decide,
   nonce_search_atomicity toyPrimitives sampleMultisig [1, 35] false []
    (fun j => List.replicate 16 j) (List.replicate 40 5) [80, 50, 83, 72] none
    (List.replicate 20 3) 2 (by decide) (by decide) (by decide) (by decide)
    (fun j => List.length_replicate 16 j) _ _ _ (by decide)⟩

/-- C8 (tweak reversibility). Let the EC primitives be modelled by a group: scalars `S`
and points form additive groups, `derive : S →+ Point` is a homomorphism,
`ec_pubkey_create` gives `derive` of the scalar, `ec_pubkey_tweak_add` adds `derive` of
the tweak, `ec_privkey_tweak_add` adds the tweak, and parsing a serialized point gives
it back. Let `priv` be a valid private key whose serialized public key sits in slot `i`
of the keys. If, for the same tag, nonce and payload, the address-mode pass over the
keys completes and claim mode returns a private key, then the bytes address mode leaves
in slot `i` parse to `derive` of the private key claim mode returns (and to whatever
`ec_pubkey_create` makes of it). -/
theorem tweak_reversibility {Point S : Type} [AddCommGroup Point] [AddCommGroup S]
    (P : Primitives Point) (scalar : List Nat → S) (derive : S →+ Point)
    (hcreate : ∀ k pt, P.ec_pubkey_create k = some pt → pt = derive (scalar k))
    (hpub : ∀ pt t q, P.ec_pubkey_tweak_add pt t = some q → q = pt + derive (scalar t))
    (hpriv : ∀ k t k1, P.ec_privkey_tweak_add k t = some k1 → scalar k1 = scalar k + scalar t)
    (hround : ∀ pt, P.ec_pubkey_parse (P.ec_pubkey_serialize pt) = some pt)
    (priv : List Nat) (pt : Point) (hvalid : P.ec_pubkey_create priv = some pt)
    (keys : List (List Nat)) (i : Nat) (hi : i < keys.length)
    (hK : keys.getD i [] = P.ec_pubkey_serialize pt)
    (nonce_hex : Bool) (uninitA uninitC tag nonce : List Nat) (ascii : Option (List Nat))
    (p2sh : List Nat) (htag : tag.length = 4) (hnonce : nonce.length = 16)
    (hp2sh : p2sh.length = 20) (hA : uninitA.length = data_len ascii)
    (hC : uninitC.length = data_len ascii)
    (keys_work : List (List Nat)) (priv1 : List Nat)
    (haddr : tweak_keys P nonce_hex (address_data uninitA tag nonce ascii p2sh) keys.length 0 keys
      = .finished keys_work)
    (hclaim : claim_mode P priv uninitC tag nonce ascii p2sh = .output priv1) :
    P.ec_pubkey_parse (keys_work.getD i []) = some (derive (scalar priv1)) ∧
    ∀ q, P.ec_pubkey_create priv1 = some q → P.ec_pubkey_parse (keys_work.getD i []) = some q := by
  have hblob : address_data uninitA tag nonce ascii p2sh
      = claim_data uninitC tag nonce ascii p2sh := by
    rw [address_data_eq uninitA tag nonce ascii p2sh htag hnonce hp2sh hA,
      claim_data_eq uninitC tag nonce ascii p2sh htag hnonce hp2sh hC]
  obtain ⟨_, _, hk⟩ := tweak_keys_finished P nonce_hex _ _ 0 keys keys_work haddr (by simp)
  obtain ⟨pt1, tw, hp, ht, hw⟩ := hk i (Nat.zero_le _) (by simpa using hi)
  rw [hK, hround] at hp
  obtain rfl : pt = pt1 := by simpa using hp
  have htw := hpub _ _ _ ht
  simp only [claim_mode, hvalid] at hclaim
  split at hclaim
  · split at hclaim
    · cases hclaim
    · rename_i k1 htweak
      obtain rfl : k1 = priv1 := by simpa using hclaim
      have hs := hpriv _ _ _ htweak
      have hmain : tw = derive (scalar k1) := by
        rw [htw, hs, map_add, hK, hblob, ← hcreate priv pt hvalid]
      refine ⟨by rw [hw, hround, hmain], ?_⟩
      intro q hq
      rw [hw, hround, hmain, hcreate k1 q hq]
  · cases hclaim

/-- Instance of C8 with the toy primitives: the private key `[5]`, its public key in the
only slot, tag "P2SH", nonce `2…2`. Address mode leaves the point 6, claim mode returns
the private key `[6]`. -/
theorem tweak_reversibility_witness :
    tweak_keys toyPrimitives false
        (address_data (List.replicate 40 5) [80, 50, 83, 72] (List.replicate 16 2) none
          (List.replicate 20 3)) 1 0 [0 :: 5 :: List.replicate 31 0]
      = .finished [0 :: 6 :: List.replicate 31 0] ∧
    claim_mode toyPrimitives [5] (List.replicate 40 9) [80, 50, 83, 72] (List.replicate 16 2)
        none (List.replicate 20 3) = .output [6] ∧
    toyPrimitives.ec_pubkey_parse ([0 :: 6 :: List.replicate 31 0].getD 0 [])
        = some ((AddMonoidHom.id Int) ((fun b : List Nat => ((b.sum : Nat) : Int)) [6])) ∧
    ∀ q, toyPrimitives.ec_pubkey_create [6] = some q →
      toyPrimitives.ec_pubkey_parse ([0 :: 6 :: List.replicate 31 0].getD 0 []) = some q :=
  ⟨by decide, by decide,
   tweak_reversibility toyPrimitives (fun b : List Nat => ((b.sum : Nat) : Int))
    (AddMonoidHom.id Int)
    (by intro k pt h
        simp only [toyPrimitives, Option.some.injEq] at h
        simp [← h])
    (by intro pt t q h
        simp only [toyPrimitives] at h
        split at h
        · cases h
        · simp only [Option.some.injEq] at h
          simp [← h])
    (by intro k t k1 h
        simp only [toyPrimitives] at h
        split at h
        · cases h
        · simp only [Option.some.injEq] at h
          simp [← h])
    (by intro pt
        simp only [toyPrimitives, List.getD_cons_zero, List.getD_cons_succ]
        by_cases hneg : pt < 0
        · simp only [hneg, if_true, Option.some.injEq]
          omega
        · simp only [hneg, if_false, Option.some.injEq]
          rw [if_neg (by decide)]
          omega)
    [5] 5 (by decide) [0 :: 5 :: List.replicate 31 0] 0 (by decide) (by decide) false
    (List.replicate 40 5) (List.replicate 40 9) [80, 50, 83, 72] (List.replicate 16 2) none
    (List.replicate 20 3) (by decide) (by decide) (by decide) (by decide) (by decide)
    [0 :: 6 :: List.replicate 31 0] [6] (by decide) (by decide)⟩

/-- C9 (commitment blob layout). For a 4-byte tag, a 16-byte nonce and either payload
(the contract text, or the 20-byte digest), whatever the arrays held before, the bytes
address mode hashes and the bytes claim mode hashes are the same string, of length
`20 + |payload|`, with the tag at 0..4, the nonce at 4..20 and the payload from 20 on. -/
theorem commitment_blob_layout (uninitA uninitC tag nonce : List Nat)
    (ascii : Option (List Nat)) (p2sh : List Nat)
    (htag : tag.length = 4) (hnonce : nonce.length = 16) (hp2sh : p2sh.length = 20)
    (hA : uninitA.length = data_len ascii) (hC : uninitC.length = data_len ascii) :
    address_data uninitA tag nonce ascii p2sh = claim_data uninitC tag nonce ascii p2sh ∧
    (address_data uninitA tag nonce ascii p2sh).length
      = 20 + (contract_payload ascii p2sh).length ∧
    (address_data uninitA tag nonce ascii p2sh).take 4 = tag ∧
    ((address_data uninitA tag nonce ascii p2sh).drop 4).take 16 = nonce ∧
    (address_data uninitA tag nonce ascii p2sh).drop 20 = contract_payload ascii p2sh := by
  rw [address_data_eq uninitA tag nonce ascii p2sh htag hnonce hp2sh hA,
    claim_data_eq uninitC tag nonce ascii p2sh htag hnonce hp2sh hC]
  unfold commitment_blob
  refine ⟨rfl, ?_, ?_, ?_, ?_⟩
  · simp [htag, hnonce]; omega
  · rw [List.append_assoc, ← htag, List.take_left]
  · rw [List.append_assoc, ← htag, List.drop_left, ← hnonce, List.take_left]
  · have : (20 : Nat) = (tag ++ nonce).length := by simp [htag, hnonce]
    rw [this, List.drop_left]

/-- Instance of C9: tag "P2SH", the nonce 0..15, a digest of twenty 7s, and two different
initial contents of the arrays. -/
theorem commitment_blob_layout_witness :
    address_data (List.replicate 40 255) [80, 50, 83, 72] (List.range 16) none
        (List.replicate 20 7)
      = claim_data (List.replicate 40 1) [80, 50, 83, 72] (List.range 16) none
        (List.replicate 20 7) ∧
    (address_data (List.replicate 40 255) [80, 50, 83, 72] (List.range 16) none
        (List.replicate 20 7)).length
      = 20 + (contract_payload none (List.replicate 20 7)).length ∧
    (address_data (List.replicate 40 255) [80, 50, 83, 72] (List.range 16) none
        (List.replicate 20 7)).take 4 = [80, 50, 83, 72] ∧
    ((address_data (List.replicate 40 255) [80, 50, 83, 72] (List.range 16) none
        (List.replicate 20 7)).drop 4).take 16 = List.range 16 ∧
    (address_data (List.replicate 40 255) [80, 50, 83, 72] (List.range 16) none
        (List.replicate 20 7)).drop 20 = contract_payload none (List.replicate 20 7) :=
  commitment_blob_layout (List.replicate 40 255) (List.replicate 40 1) [80, 50, 83, 72]
    (List.range 16) none (List.replicate 20 7) (by decide) (by decide) (by decide)
    (by decide) (by decide)

/-- C10 (commitment determinism and sensitivity). Over 4-byte tags, 16-byte nonces and
payloads, the bytes address mode hashes depend on `(tag, nonce, payload)` only (not on
the earlier content of the array), and two inputs give the same bytes exactly when their
tags, their nonces and their payloads are equal. -/
theorem commitment_blob_injective (uninit1 uninit2 tag1 tag2 nonce1 nonce2 : List Nat)
    (ascii1 ascii2 : Option (List Nat)) (p2sh1 p2sh2 : List Nat)
    (htag1 : tag1.length = 4) (htag2 : tag2.length = 4)
    (hnonce1 : nonce1.length = 16) (hnonce2 : nonce2.length = 16)
    (hp2sh1 : p2sh1.length = 20) (hp2sh2 : p2sh2.length = 20)
    (hlen1 : uninit1.length = data_len ascii1) (hlen2 : uninit2.length = data_len ascii2) :
    address_data uninit1 tag1 nonce1 ascii1 p2sh1 = address_data uninit2 tag2 nonce2 ascii2 p2sh2
      ↔ tag1 = tag2 ∧ nonce1 = nonce2 ∧
        contract_payload ascii1 p2sh1 = contract_payload ascii2 p2sh2 := by
  rw [address_data_eq uninit1 tag1 nonce1 ascii1 p2sh1 htag1 hnonce1 hp2sh1 hlen1,
    address_data_eq uninit2 tag2 nonce2 ascii2 p2sh2 htag2 hnonce2 hp2sh2 hlen2]
  unfold commitment_blob
  constructor
  · intro h
    obtain ⟨h12, h3⟩ := List.append_inj h (by simp [htag1, htag2, hnonce1, hnonce2])
    obtain ⟨h1, h2⟩ := List.append_inj h12 (by rw [htag1, htag2])
    exact ⟨h1, h2, h3⟩
  · rintro ⟨h1, h2, h3⟩
    rw [h1, h2, h3]

/-- Instance of C10: the same tag, nonce and payload (once as text, once as digest) over
different initial array contents give the same bytes. -/
theorem commitment_blob_injective_witness :
    address_data (List.replicate 40 255) [80, 50, 83, 72] (List.range 16)
        (some (List.replicate 20 7)) (List.replicate 20 0)
      = address_data (List.replicate 40 1) [80, 50, 83, 72] (List.range 16) none
        (List.replicate 20 7)
      ↔ [80, 50, 83, 72] = [80, 50, 83, 72] ∧ List.range 16 = List.range 16 ∧
        contract_payload (some (List.replicate 20 7)) (List.replicate 20 0)
          = contract_payload none (List.replicate 20 7) :=
  commitment_blob_injective (List.replicate 40 255) (List.replicate 40 1) [80, 50, 83, 72]
    [80, 50, 83, 72] (List.range 16) (List.range 16) (some (List.replicate 20 7)) none
    (List.replicate 20 0) (List.replicate 20 7) (by decide) (by decide) (by decide)
    (by decide) (by decide) (by decide) (by decide) (by decide)

/-- C11 (fixed-nonce mode). With a caller-supplied nonce, for every positive fuel and every
random stream: (1) the outcome of address mode is that of one pass of the `for` loop over
the original keys under the supplied nonce, which involves neither the stream nor the
fuel; (2) that pass never ends by `break`; (3) if the tweak-add of any key reports out of
range the run ends in `ERROREXIT`, so nothing is printed; (4) when output is printed, the
nonce printed is the supplied one. -/
theorem fixed_nonce_single_attempt {Point : Type} (P : Primitives Point)
    (redeem_script keys nonce : List Nat) (rand : Nat → List Nat) (uninit tag : List Nat)
    (ascii : Option (List Nat)) (p2sh : List Nat) (fuel : Nat) :
    (address_mode P redeem_script keys true nonce rand uninit tag ascii p2sh (fuel + 1)
      = match tweak_keys P true (address_data uninit tag nonce ascii p2sh) keys.length 0
          (keys.map (keyAt redeem_script)) with
        | .finished keys_work =>
          .output nonce (address_data uninit tag nonce ascii p2sh)
            (write_back redeem_script keys keys_work)
        | .exit e => .exit e
        | .stopped _ _ => .outOfFuel) ∧
    (∀ i kw, tweak_keys P true (address_data uninit tag nonce ascii p2sh) keys.length 0
        (keys.map (keyAt redeem_script)) ≠ .stopped i kw) ∧
    (∀ i pt, i < keys.length →
      P.ec_pubkey_parse (keyAt redeem_script (keys.getD i 0)) = some pt →
      P.ec_pubkey_tweak_add pt (P.hmac_sha256 (keyAt redeem_script (keys.getD i 0))
        (address_data uninit tag nonce ascii p2sh)) = none →
      ∃ e, address_mode P redeem_script keys true nonce rand uninit tag ascii p2sh (fuel + 1)
        = .exit e) ∧
    (∀ n d s, address_mode P redeem_script keys true nonce rand uninit tag ascii p2sh (fuel + 1)
        = .output n d s → n = nonce) := by
  have hmode := address_mode_fixed P redeem_script keys nonce rand uninit tag ascii p2sh fuel
  refine ⟨hmode, fun i kw => tweak_keys_fixed_not_stopped P _ _ _ _ i kw, ?_, ?_⟩
  · intro i pt hi hp ht
    have hget : (keys.map (keyAt redeem_script)).getD i []
        = keyAt redeem_script (keys.getD i 0) := by
      simp [List.getD_eq_getElem?_getD, List.getElem?_map, hi]
    obtain ⟨e, he⟩ := tweak_keys_fixed_out_of_range P
      (address_data uninit tag nonce ascii p2sh) (keys.map (keyAt redeem_script)) i
      (by simpa using hi) pt (by rw [hget]; exact hp) (by rw [hget]; exact ht)
    rw [List.length_map] at he
    rw [hmode, he]
    exact ⟨e, rfl⟩
  · intro n d s h
    rw [hmode] at h
    split at h
    · simp only [AddressOutcome.output.injEq] at h
      exact h.1.symm
    · cases h
    · cases h

/-- Instance of C11 on the 2-of-2 sample script with the toy primitives and the supplied
nonce `0…0`, under which the second key is out of range: the run exits. -/
theorem fixed_nonce_single_attempt_witness :
    toyPrimitives.ec_pubkey_parse (keyAt sampleMultisig ([1, 35].getD 1 0)) = some 9 ∧
    toyPrimitives.ec_pubkey_tweak_add 9
      (toyPrimitives.hmac_sha256 (keyAt sampleMultisig ([1, 35].getD 1 0))
        (address_data (List.replicate 40 5) [80, 50, 83, 72] (List.replicate 16 0) none
          (List.replicate 20 3))) = none ∧
    address_mode toyPrimitives sampleMultisig [1, 35] true (List.replicate 16 0)
        (fun j => List.replicate 16 j) (List.replicate 40 5) [80, 50, 83, 72] none
        (List.replicate 20 3) (7 + 1) = .exit .brokeSha256 ∧
    ∃ e, address_mode toyPrimitives sampleMultisig [1, 35] true (List.replicate 16 0)
        (fun j => List.replicate 16 j) (List.replicate 40 5) [80, 50, 83, 72] none
        (List.replicate 20 3) (7 + 1) = .exit e :=
  ⟨by decide, by decide, by decide,
   (fixed_nonce_single_attempt toyPrimitives sampleMultisig [1, 35] (List.replicate 16 0)
      (fun j => List.replicate 16 j) (List.replicate 40 5) [80, 50, 83, 72] none
      (List.replicate 20 3) 7).2.2.1 1 9 (by decide) (by decide) (by decide)⟩

/-- C12, evaluated on option sequences that supply two contract sources. Address
generation with `-d` followed by `-a` is accepted with both contracts set, while the same
options in the order `-a`, `-d` are rejected; `-f` followed by `-n`, by `-d` or by `-a`
is accepted, while each of these followed by `-f` is rejected. -/
theorem two_contracts_accepted_in_one_order :
    contractSources [.g, .r [53, 49], .d [109], .a [104, 105]] = 2 ∧
    validate_args [.g, .r [53, 49], .d [109], .a [104, 105]]
      = .accepted { mode := 1, redeem_script_hex := some [53, 49], p2sh_address := some [109],
                    ascii_contract := some [104, 105], priv_key_str := none,
                    nonce_hex := none, fullcontract_hex := none } ∧
    validate_args [.g, .r [53, 49], .a [104, 105], .d [109]] = .usage .oneContract ∧
    validate_args [.g, .r [53, 49], .f [80], .n [48]]
      = .accepted { mode := 1, redeem_script_hex := some [53, 49], p2sh_address := none,
                    ascii_contract := none, priv_key_str := none,
                    nonce_hex := some [48], fullcontract_hex := some [80] } ∧
    validate_args [.g, .r [53, 49], .n [48], .f [80]] = .usage .fullContractExclusive ∧
    validate_args [.g, .r [53, 49], .f [80], .d [109]]
      = .accepted { mode := 1, redeem_script_hex := some [53, 49], p2sh_address := some [109],
                    ascii_contract := none, priv_key_str := none,
                    nonce_hex := none, fullcontract_hex := some [80] } ∧
    validate_args [.g, .r [53, 49], .d [109], .f [80]] = .usage .fullContractExclusive ∧
    validate_args [.g, .r [53, 49], .f [80], .a [104, 105]]
      = .accepted { mode := 1, redeem_script_hex := some [53, 49], p2sh_address := none,
                    ascii_contract := some [104, 105], priv_key_str := none,
                    nonce_hex := none, fullcontract_hex := some [80] } ∧
    validate_args [.g, .r [53, 49], .a [104, 105], .f [80]] = .usage .fullContractExclusive := by
  decide

/-- C13 (check opcode without keys). If after `n` completed iterations the scan stands at
an opcode byte in 172..175 with no candidate keys, then the flag is not armed and, with
any fuel above `n`, the function ends in the `ERROREXIT` of line 96. More generally, in
every state the scan reaches, an armed flag comes with a non-empty candidate set, so no
check opcode is accepted with zero candidates. -/
theorem checksig_without_keys_rejected (script : List Nat) (n : Nat) (st : ScanState)
    (hreach : scanSteps script n initState = some st)
    (hpos : st.readpos < script.length)
    (hop : 172 ≤ byteAt script st.readpos ∧ byteAt script st.readpos ≤ 175)
    (hempty : st.maybe_keys = []) (fuel : Nat) (hfuel : n < fuel) :
    st.require_next_checkmultisig = false ∧
    get_pubkeys_from_redeemscript fuel script = .exit .checksigWithoutKeys ∧
    ∀ (m : Nat) (s : ScanState), scanSteps script m initState = some s →
      s.require_next_checkmultisig = true → s.maybe_keys ≠ [] := by
  have hreq : st.require_next_checkmultisig = false := by
    cases hr : st.require_next_checkmultisig with
    | false => rfl
    | true => exact absurd hempty (armed_has_candidates hreach hr)
  refine ⟨hreq, ?_, fun m s hs => armed_has_candidates hs⟩
  exact scan_loop_exit_of_scanSteps hreach hpos
    (scan_step_checksig_without_keys hop hempty hreq) fuel hfuel

/-- Instance of C13: after an accepted single-signature group the script continues with a
bare `OP_CHECKMULTISIG`. -/
theorem checksig_without_keys_rejected_witness :
    scanSteps (encodePush .direct sampleKeyA ++ [172, 174]) 2 initState
      = some { readpos := 35, maybe_keys := [], pubkeys := [1],
               require_next_checkmultisig := false } ∧
    get_pubkeys_from_redeemscript 3 (encodePush .direct sampleKeyA ++ [172, 174])
      = .exit .checksigWithoutKeys :=
  ⟨by decide,
   (checksig_without_keys_rejected (encodePush .direct sampleKeyA ++ [172, 174]) 2
    { readpos := 35, maybe_keys := [], pubkeys := [1], require_next_checkmultisig := false }
    (by decide) (by decide) (by decide) (by decide) 3 (by decide)).2.1⟩

/-- C14 (ambiguous key grouping). For a script shorter than `2 ^ 32` bytes (its length is
an `unsigned int`): if after `n` completed iterations the scan stands, with at least one
candidate key, at a push header (a byte in 1..78) and the item is not a push of 33 bytes
starting with 0x02 or 0x03, then with any fuel above `n` the function ends in
`ERROREXIT`. -/
theorem ambiguous_push_rejected (script : List Nat) (n : Nat) (st : ScanState)
    (hL : script.length < 2 ^ 32)
    (hreach : scanSteps script n initState = some st)
    (hpos : st.readpos < script.length)
    (hop : 0 < byteAt script st.readpos ∧ byteAt script st.readpos ≤ 78)
    (hcand : st.maybe_keys ≠ [])
    (hnotkey : ∀ ps, read_push script st.readpos = .ok (33, ps) →
      ¬ (byteAt script ps = 2 ∨ byteAt script ps = 3))
    (fuel : Nat) (hfuel : n < fuel) :
    ∃ e, get_pubkeys_from_redeemscript fuel script = .exit e ∧
      (e = .invalidPush ∨ e = .uncompressedPubkey ∨ e = .keysNotUsed) := by
  have hb := candidates_bound hL hreach
  have hc : 0 < st.maybe_keys.length := List.length_pos.mpr hcand
  obtain ⟨e, hstep, he⟩ := scan_step_push_with_candidates hop hc (by omega) hnotkey
  exact ⟨e, scan_loop_exit_of_scanSteps hreach hpos hstep fuel hfuel, he⟩

/-- Instance of C14: a compressed-key push followed by a push of two bytes. -/
theorem ambiguous_push_rejected_witness :
    scanSteps (encodePush .direct sampleKeyA ++ [2, 9, 9, 172]) 1 initState
      = some { readpos := 34, maybe_keys := [1], pubkeys := [],
               require_next_checkmultisig := false } ∧
    byteAt (encodePush .direct sampleKeyA ++ [2, 9, 9, 172]) 34 = 2 ∧
    get_pubkeys_from_redeemscript 2 (encodePush .direct sampleKeyA ++ [2, 9, 9, 172])
      = .exit .keysNotUsed ∧
    ∃ e, get_pubkeys_from_redeemscript 2 (encodePush .direct sampleKeyA ++ [2, 9, 9, 172])
        = .exit e ∧
      (e = .invalidPush ∨ e = .uncompressedPubkey ∨ e = .keysNotUsed) :=
  ⟨by decide, by decide, by decide,
   ambiguous_push_rejected (encodePush .direct sampleKeyA ++ [2, 9, 9, 172]) 1
    { readpos := 34, maybe_keys := [1], pubkeys := [], require_next_checkmultisig := false }
    (by decide) (by decide) (by decide) (by decide) (by decide)
    (fun ps h => by
      have e : read_push (encodePush .direct sampleKeyA ++ [2, 9, 9, 172]) 34 = .ok (2, 35) :=
        rfl
      rw [e] at h
      simp at h)
    2 (by decide)⟩

/-- C15, evaluated on `scriptHugePushdata4`: after two iterations (one key accepted) the
scan stands at `OP_PUSHDATA4` with the four length bytes `ff ff ff ff` present, a length
of 4294967295 that the one remaining byte cannot hold. The header decodes to
`pushlen = -1`, the item is handled as an opcode, and the function returns the key found
before it. -/
theorem huge_pushdata4_not_rejected :
    scanSteps scriptHugePushdata4 2 initState
      = some { readpos := 35, maybe_keys := [], pubkeys := [1],
               require_next_checkmultisig := false } ∧
    scriptHugePushdata4.length = 41 ∧
    (scriptHugePushdata4.drop 35).take 5 = push_header .pushdata4 4294967295 ∧
    scan_step scriptHugePushdata4 { readpos := 35, maybe_keys := [], pubkeys := [1],
                                    require_next_checkmultisig := false }
      = .next { readpos := 36, maybe_keys := [], pubkeys := [1],
                require_next_checkmultisig := false } ∧
    ∀ d : Nat, get_pubkeys_from_redeemscript (9 + d) scriptHugePushdata4 = .ret [1] := by
  have h : scanSteps scriptHugePushdata4 8 initState
      = some { readpos := 41, maybe_keys := [], pubkeys := [1],
               require_next_checkmultisig := false } := by decide
  refine ⟨by decide, by decide, by decide, by decide, fun d => ?_⟩
  have e : 9 + d = 8 + (d + 1) := by omega
  rw [get_pubkeys_from_redeemscript, e, scan_loop_of_scanSteps h, scan_loop_at_end]
  decide

/-- C16, evaluated on `fullcontractP2PH`: the 40 bytes carry the accepted tag "P2PH", and
the bytes the tool hashes carry "P2SH" instead (line 195), so they differ from the input
in the third byte; the nonce and the digest are kept. The same contract with the tag
"P2SH" is reproduced byte for byte. -/
theorem fullcontract_p2ph_not_preserved :
    fullcontractP2PH.length = 40 ∧
    fullcontractP2PH.take 4 = [80, 50, 80, 72] ∧
    decode_fullcontract fullcontractP2PH
      = .decoded [80, 50, 83, 72] (List.range 16) (List.replicate 20 7) ∧
    fullcontract_data (List.replicate 40 255) fullcontractP2PH
      = some ([80, 50, 83, 72] ++ List.range 16 ++ List.replicate 20 7) ∧
    fullcontract_data (List.replicate 40 255) fullcontractP2PH ≠ some fullcontractP2PH ∧
    fullcontract_data (List.replicate 40 255)
        ([80, 50, 83, 72] ++ List.range 16 ++ List.replicate 20 7)
      = some ([80, 50, 83, 72] ++ List.range 16 ++ List.replicate 20 7) := by
  decide

/-- C17, evaluated on `scriptBackwardLoop` (`4e fb ff ff ff`): the header decodes to
`pushlen = -5`, the iteration completes and leaves the read position at 0 and every local
as it was, so the loop never ends: the function is still running whatever the fuel. -/
theorem backward_pushdata4_loops :
    byteAt scriptBackwardLoop 0 = 78 ∧
    toInt32 (251 + 256 * 255 + 65536 * 255 + 16777216 * 255) = -5 ∧
    scan_step scriptBackwardLoop initState = .next initState ∧
    ∀ fuel : Nat, get_pubkeys_from_redeemscript fuel scriptBackwardLoop = .outOfFuel := by
  have hstep : scan_step scriptBackwardLoop initState = .next initState := by decide
  refine ⟨by decide, by decide, hstep, fun fuel => ?_⟩
  unfold get_pubkeys_from_redeemscript
  induction fuel with
  | zero => rfl
  | succ k ih =>
    have hlt : initState.readpos < scriptBackwardLoop.length := by decide
    simp only [scan_loop, hlt, if_true, hstep]
    exact ih

/-- C18, evaluated on `scriptRescan` (42 bytes, so the caller's array holds
`42 / 33 = 1` pointer): the first pass accepts the key at offset 1, `OP_PUSHDATA4` with
`pushlen = -33` sends the read position from 35 back to 7, the second pass accepts the
key-shaped bytes at offset 8, and the function returns two pointers. -/
theorem rescan_overflows_capacity :
    scriptRescan.length = 42 ∧
    scanSteps scriptRescan 2 initState
      = some { readpos := 35, maybe_keys := [], pubkeys := [1],
               require_next_checkmultisig := false } ∧
    scanSteps scriptRescan 3 initState
      = some { readpos := 7, maybe_keys := [], pubkeys := [1],
               require_next_checkmultisig := false } ∧
    (∀ d : Nat, get_pubkeys_from_redeemscript (6 + d) scriptRescan = .ret [1, 8]) ∧
    scriptRescan.length / 33 < [1, 8].length := by
  have h : scanSteps scriptRescan 5 initState
      = some { readpos := 42, maybe_keys := [], pubkeys := [1, 8],
               require_next_checkmultisig := false } := by decide
  refine ⟨by decide, by decide, by decide, fun d => ?_, by decide⟩
  have e : 6 + d = 5 + (d + 1) := by omega
  rw [get_pubkeys_from_redeemscript, e, scan_loop_of_scanSteps h, scan_loop_at_end]
  decide

/-- C19 (final-item push rejection). If after `n` completed iterations the scan stands at a
push (in any push form that can encode its length) whose data are the last bytes of the
script, then with any fuel above `n` the function ends with the invalid-push error: a
push is only accepted when at least one byte follows its data. -/
theorem final_push_rejected (pre data : List Nat) (f : PushForm) (n : Nat) (st : ScanState)
    (hfit : f.fits data.length)
    (hreach : scanSteps (pre ++ encodePush f data) n initState = some st)
    (hpos : st.readpos = pre.length) (fuel : Nat) (hfuel : n < fuel) :
    get_pubkeys_from_redeemscript fuel (pre ++ encodePush f data) = .exit .invalidPush := by
  have hread := read_push_encodePush pre [] data f hfit
  rw [List.append_nil, ← hpos] at hread
  have hl : (pre ++ encodePush f data).length
      = pre.length + (push_header f data.length).length + data.length := by
    simp [length_encodePush]; omega
  have hh : 1 ≤ (push_header f data.length).length := by
    cases f <;> simp [push_header]
  have hstep := @scan_step_push_past_end (pre ++ encodePush f data) st _ _ hread
    (by omega) (by rw [hl, hpos]; push_cast; omega)
  exact scan_loop_exit_of_scanSteps hreach (by rw [hl, hpos]; omega) hstep fuel hfuel

/-- Instance of C19: the script is a complete direct push of a compressed key and nothing
else. -/
theorem final_push_rejected_witness :
    PushForm.fits .direct sampleKeyA.length ∧
    scanSteps ([] ++ encodePush .direct sampleKeyA) 0 initState = some initState ∧
    get_pubkeys_from_redeemscript 1 ([] ++ encodePush .direct sampleKeyA)
      = .exit .invalidPush :=
  ⟨by decide, by decide,
   final_push_rejected [] sampleKeyA .direct 0 initState (by decide) (by decide) (by decide)
    1 (by decide)⟩

end ContractHashTool
